import Mathlib

/-!
Verification of the Hanjie (nonogram) solver: a shallow embedding of
`linesolver.py` (class `LineSolver`) and `hanjie.py` (class `Hanjie`).

Cell encoding follows the source: `0` = undetermined (Unknown), `1` = filled
(Filled), `-1` = definitely unfilled (Empty).
-/

namespace LineSolver

/-- `self._line = copy.deepcopy(line) + [-1]`: the working line with the
extra empty sentinel cell appended. -/
def lineS (line : List Int) : List Int := line ++ [-1]

/-- `self._length = len(self._line)`: length of the line including the
sentinel. -/
def lengthS (line : List Int) : Nat := (lineS line).length

/-- The suffix sums `self._length_suffix`: entry `k` is the total space
`sum (x + 1)` needed by clues `k..end` (built iteratively in `__init__`). -/
def lengthSuffix : List Nat → List Nat
  | [] => [0]
  | c :: cs => (c + 1 + (lengthSuffix cs).headD 0) :: lengthSuffix cs

/-- Helper for `shadedPos`: positions (offset by `i`) of cells equal to `1`,
mirroring the `for i, x in enumerate(self._line): if x == 1: append(i)` loop. -/
def shadedFrom : Nat → List Int → List Int
  | _, [] => []
  | i, x :: xs => if x = 1 then (i : Int) :: shadedFrom (i + 1) xs else shadedFrom (i + 1) xs

/-- `self._shaded_pos`: `[-1]` followed by the positions of the shaded cells
of the working line (sentinel included in the scan, but it is `-1`). -/
def shadedPos (line : List Int) : List Int := -1 :: shadedFrom 0 (lineS line)

/-- `bisect.bisect_left(l, x)` on a sorted list: the insertion point, i.e.
the number of elements strictly below `x`. -/
def bisectLeft (l : List Int) (x : Int) : Nat := l.countP (fun y => y < x)

/-- `LineSolver._reject`: there is not enough space left in the line to
place the remaining blocks.  Node is `(line_pos, first_block)`. -/
def reject (line : List Int) (clues : List Nat) (node : Nat × Nat) : Bool :=
  decide (((lengthSuffix clues).getD node.2 0 : Int) > (lengthS line : Int) - (node.1 : Int))

/-- `LineSolver._accept`: all blocks placed and the cursor is strictly past
the last shaded cell. -/
def accept (line : List Int) (clues : List Nat) (node : Nat × Nat) : Bool :=
  decide (node.2 = clues.length ∧ ((node.1 : Int) > (shadedPos line).getLastD (-1)))

/-- `LineSolver._is_allowed`: a block of size `blockSize` may sit in the
cells immediately preceding `endPos`: the cell at `endPos` is not filled and
no cell of the block is empty. -/
def isAllowed (line : List Int) (blockSize endPos : Nat) : Bool :=
  ((lineS line).getD endPos 0 != 1) &&
  (((lineS line).drop (endPos - blockSize)).take blockSize).all (fun c => c != -1)

mutual
/-- The outer `while block_end <= last_cell` loop of `_children` combined
with the inner "advance until allowed" scan: at each candidate `e`, if the
placement is allowed a child `(e + 1, k + 1)` is yielded. -/
def childrenScan (line : List Int) (k sz : Nat) (lastCell : Int) (e : Nat) :
    List (Nat × Nat) :=
  if h : (e : Int) > lastCell then []
  else if isAllowed line sz e then
    (e + 1, k + 1) :: childrenAdvance line k sz lastCell e
  else childrenScan line k sz lastCell (e + 1)
termination_by ((lastCell + 1 - (e : Int)).toNat, 1)

/-- The post-yield `while self._line[block_end] != 1` scan of `_children`:
advance to the next shaded cell (returning if the bound is passed), then step
one past it and resume the outer loop. -/
def childrenAdvance (line : List Int) (k sz : Nat) (lastCell : Int) (e : Nat) :
    List (Nat × Nat) :=
  if h : (e : Int) > lastCell then []
  else if (lineS line).getD e 0 = 1 then childrenScan line k sz lastCell (e + 1)
  else childrenAdvance line k sz lastCell (e + 1)
termination_by ((lastCell + 1 - (e : Int)).toNat, 0)
end

/-- `LineSolver._children`: the children of a search node `(line_pos,
first_block)` — the leftmost placement of the next block and the placements
aligned with each successive upcoming shaded run. -/
def children (line : List Int) (clues : List Nat) (node : Nat × Nat) :
    List (Nat × Nat) :=
  if node.2 = clues.length then []
  else
    let sz := clues.getD node.2 0
    let firstShadedIx := bisectLeft (shadedPos line) (node.1 : Int)
    let firstShadedCell := (shadedPos line).getD firstShadedIx (lengthS line : Int)
    let lastCell := min ((lengthS line : Int) - 1) (firstShadedCell + (sz : Int))
    childrenScan line node.2 sz lastCell (node.1 + sz)

/-- Helper for `dupPushes`, recursing on the length of the list. -/
def dupPushesAux {α : Type} : Nat → List α → List α
  | 0, _ => []
  | m + 1, l => l ++ dupPushesAux m l.dropLast

/-- The duplicated pushes of `has_solution`: for each new child the whole
accumulated child list is pushed again in reverse, so with top-of-stack at
the head the pushed segment is `children ++ children.dropLast ++ …`. -/
def dupPushes {α : Type} (l : List α) : List α := dupPushesAux l.length l

/-- The iterative DFS driver of `LineSolver.has_solution`, with explicit
fuel: pop a node, return `false` on rejection, `true` on acceptance,
otherwise push the children (with the duplicated pushes of the source). -/
def hasSolutionLoop (line : List Int) (clues : List Nat) :
    Nat → List (Nat × Nat) → Option Bool
  | 0, _ => none
  | _ + 1, [] => some false
  | fuel + 1, node :: rest =>
    if reject line clues node then some false
    else if accept line clues node then some true
    else hasSolutionLoop line clues fuel (dupPushes (children line clues node) ++ rest)

/-- Fuel that provably suffices for the search to finish (see
`hasSolutionLoop_total`). -/
def searchFuel (line : List Int) : Nat :=
  (lengthS line * lengthS line + 1) ^ lengthS line + 1

/-- `LineSolver.has_solution`: run the iterative search from the root
`(0, 0)`. -/
def has_solution (line : List Int) (clues : List Nat) : Bool :=
  (hasSolutionLoop line clues (searchFuel line) [(0, 0)]).getD false

/-- How one run of the search can end: an accepting node was popped, the
stack ran empty, or a rejected node was popped (whole-search abort). -/
inductive SR where
  | found
  | exhausted
  | aborted
deriving DecidableEq

/-- The instrumented search driver: identical to the loop of
`has_solution`, but it reports how the search ended — `.aborted` when it
returned `false` because the popped node was rejected, `.found` when an
accepting node was popped, `.exhausted` when the stack ran empty. -/
def hasSolutionLoopOut (line : List Int) (clues : List Nat) :
    Nat → List (Nat × Nat) → Option SR
  | 0, _ => none
  | _ + 1, [] => some .exhausted
  | fuel + 1, node :: rest =>
    if reject line clues node then some .aborted
    else if accept line clues node then some .found
    else hasSolutionLoopOut line clues fuel (dupPushes (children line clues node) ++ rest)

/-- The variant of the search driver that, instead of returning `false` as
soon as a rejected node is popped, merely discards that node (prunes the
branch) and continues with the rest of the stack. -/
def hasSolutionLoopPruned (line : List Int) (clues : List Nat) :
    Nat → List (Nat × Nat) → Option Bool
  | 0, _ => none
  | _ + 1, [] => some false
  | fuel + 1, node :: rest =>
    if reject line clues node then hasSolutionLoopPruned line clues fuel rest
    else if accept line clues node then some true
    else hasSolutionLoopPruned line clues fuel (dupPushes (children line clues node) ++ rest)

/-- The search result under branch-pruning-only rejection handling. -/
def has_solution_pruned (line : List Int) (clues : List Nat) : Bool :=
  (hasSolutionLoopPruned line clues (searchFuel line) [(0, 0)]).getD false

/-! ### Specification-side predicates -/

/-- Cell `j` of the working line is filled. -/
def shaded (line : List Int) (j : Nat) : Prop := (lineS line).getD j 0 = 1

instance (line : List Int) (j : Nat) : Decidable (shaded line j) := by
  unfold shaded; infer_instance

/-- `SatP line c cs`: the clue suffix `cs` can be laid out in the part of
the line from cell `c` on: blocks in order, separated by at least one
non-filled cell, each block free of `Empty` cells, every filled cell at
position `≥ c` covered by some block, and nothing running past the real
line (the sentinel stays uncovered). -/
def SatP (line : List Int) : Nat → List Nat → Prop
  | c, [] => ∀ j, c ≤ j → ¬shaded line j
  | c, sz :: rest =>
    ∃ s, c ≤ s ∧ s + sz + 1 ≤ lengthS line ∧
      (∀ j, c ≤ j → j < s → ¬shaded line j) ∧
      (∀ j, s ≤ j → j < s + sz → (lineS line).getD j 0 ≠ -1) ∧
      ¬shaded line (s + sz) ∧
      SatP line (s + sz + 1) rest

/-- A placement of the clue blocks on the original line, in clue order,
left to right, with at least one cell between consecutive blocks, covering
every filled (`1`) cell and no definitely-empty (`-1`) cell.  (The cells
between consecutive blocks are automatically non-filled, being uncovered.) -/
def Arrangement (line : List Int) (clues : List Nat) (starts : List Nat) : Prop :=
  starts.length = clues.length ∧
  (∀ j, j + 1 < starts.length →
    starts.getD j 0 + clues.getD j 0 < starts.getD (j + 1) 0) ∧
  (∀ j, j < starts.length → starts.getD j 0 + clues.getD j 0 ≤ line.length) ∧
  (∀ p, p < line.length → line.getD p 0 = 1 →
    ∃ j, j < starts.length ∧ starts.getD j 0 ≤ p ∧ p < starts.getD j 0 + clues.getD j 0) ∧
  (∀ p, p < line.length → line.getD p 0 = -1 →
    ∀ j, j < starts.length → ¬(starts.getD j 0 ≤ p ∧ p < starts.getD j 0 + clues.getD j 0))

/-! ### A recursive presentation of the search -/

/-- The position of the first shaded cell at or after `c` (the value
`self._shaded_pos[first_shaded_ix]` computed in `_children`), defaulting to
the line length when there is none. -/
def fscOf (line : List Int) (c : Nat) : Int :=
  (shadedPos line).getD (bisectLeft (shadedPos line) (c : Int)) (lengthS line : Int)

/-- The `last_cell` bound computed in `_children` for node `(c, k)`. -/
def lastCellOf (line : List Int) (clues : List Nat) (c k : Nat) : Int :=
  min ((lengthS line : Int) - 1) (fscOf line c + (clues.getD k 0 : Int))

/-- `children` with the cursor bounds made explicit (the filter is provably
the identity, see `childrenB_eq`); used to present the search recursively. -/
def childrenB (line : List Int) (clues : List Nat) (node : Nat × Nat) :
    List (Nat × Nat) :=
  (children line clues node).filter
    (fun nd => decide (node.1 < nd.1 ∧ nd.1 ≤ lengthS line))

/-- First result that is not `.exhausted`, else `.exhausted`: how a stack
of independent subsearches combines in the driver. -/
def firstSR : List SR → SR
  | [] => .exhausted
  | .exhausted :: rs => firstSR rs
  | .found :: _ => .found
  | .aborted :: _ => .aborted

/-- The boolean the driver returns for each way the search can end. -/
def srBool : SR → Bool
  | .found => true
  | _ => false

/-- Recursive presentation of the depth-first search from one node: reject
aborts, accept is a success, otherwise the children are searched left to
right and the first non-exhausted result decides. -/
def searchNode (line : List Int) (clues : List Nat) (node : Nat × Nat) : SR :=
  if reject line clues node then .aborted
  else if accept line clues node then .found
  else firstSR ((childrenB line clues node).attach.map
    (fun nd => searchNode line clues nd.1))
termination_by lengthS line + 1 - node.1
decreasing_by
  have h := (List.mem_filter.mp nd.2).2
  simp at h
  omega

/-- Recursive presentation of the pruning-only search: a rejected node just
fails, and a node succeeds when some child succeeds. -/
def searchNodeP (line : List Int) (clues : List Nat) (node : Nat × Nat) : Bool :=
  if reject line clues node then false
  else if accept line clues node then true
  else (childrenB line clues node).attach.any
    (fun nd => searchNodeP line clues nd.1)
termination_by lengthS line + 1 - node.1
decreasing_by
  have h := (List.mem_filter.mp nd.2).2
  simp at h
  omega

/-- The combined result of searching the nodes of a stack in order. -/
def nodesResult (line : List Int) (clues : List Nat) : List (Nat × Nat) → SR
  | [] => .exhausted
  | nd :: rest => match searchNode line clues nd with
    | .exhausted => nodesResult line clues rest
    | r => r

/-- Weight of a search node, used to bound the running time of the driver:
nodes with a larger cursor weigh geometrically less. -/
def nodeWeight (line : List Int) (nd : Nat × Nat) : Nat :=
  (lengthS line * lengthS line + 1) ^ (lengthS line - nd.1)

/-- Total weight of a stack. -/
def weightSum (line : List Int) (stack : List (Nat × Nat)) : Nat :=
  (stack.map (nodeWeight line)).sum

end LineSolver

namespace Hanjie
open LineSolver

/-- `Hanjie._check_consistency`. -/
def check_consistency (line : List Int) (clues : List Nat) : Bool :=
  has_solution line clues

/-- The deduction loop of `Hanjie._make_deductions`: starting at cell `i`
with `m` cells still to scan, for each as-yet-undetermined cell, test it
filled and test it unfilled, and record the forced value whenever one
hypothesis is inconsistent. -/
def deduceFrom (line : List Int) (clues : List Nat) : Nat → Nat → List (Nat × Int)
  | 0, _ => []
  | m + 1, i =>
    (if line.getD i 0 = 0 then
      (if check_consistency (line.set i 1) clues then [] else [(i, -1)]) ++
      (if check_consistency (line.set i (-1)) clues then [] else [(i, 1)])
    else []) ++ deduceFrom line clues m (i + 1)

/-- `Hanjie._make_deductions`: `none` models the `False` return on an
inconsistent line, otherwise the list of `(index, forced value)` pairs. -/
def make_deductions (line : List Int) (clues : List Nat) :
    Option (List (Nat × Int)) :=
  if check_consistency line clues then some (deduceFrom line clues line.length 0)
  else none

/-- The mutable state of a `Hanjie` object: the grid of cells (`0`
undetermined, `1` filled, `-1` definitely unfilled), the fixed clues, and
the per-line dirty flags. -/
structure HState where
  width : Nat
  height : Nat
  grid : List (List Int)
  row_clues : List (List Nat)
  col_clues : List (List Nat)
  rows_to_check : List Bool
  cols_to_check : List Bool
deriving DecidableEq

/-- `Hanjie.__init__`: an all-undetermined grid sized from the clues, and
every line marked as needing a check. -/
def init (row_clues col_clues : List (List Nat)) : HState where
  width := col_clues.length
  height := row_clues.length
  grid := List.replicate row_clues.length (List.replicate col_clues.length 0)
  row_clues := row_clues
  col_clues := col_clues
  rows_to_check := List.replicate row_clues.length true
  cols_to_check := List.replicate col_clues.length true

/-- `[self._grid[index][j] for j in xrange(self._width)]`: the row with
the given index, read from the grid. -/
def rowLine (st : HState) (index : Nat) : List Int :=
  (List.range st.width).map (fun j => (st.grid.getD index []).getD j 0)

/-- `[self._grid[j][index] for j in xrange(self._height)]`: the column with
the given index, read from the grid. -/
def colLine (st : HState) (index : Nat) : List Int :=
  (List.range st.height).map (fun j => (st.grid.getD j []).getD index 0)

/-- `Hanjie._single_pass_row`: probe row `index`; on success apply each
deduction to the grid, mark the intersecting column dirty, and clear the
row's own dirty flag.  `none` models the `False` (contradiction) return. -/
def single_pass_row (st : HState) (index : Nat) : Option HState :=
  match make_deductions (rowLine st index) (st.row_clues.getD index []) with
  | none => none
  | some deds =>
    let st1 := deds.foldl (fun acc d =>
      { acc with
        grid := acc.grid.set index ((acc.grid.getD index []).set d.1 d.2),
        cols_to_check := acc.cols_to_check.set d.1 true }) st
    some { st1 with rows_to_check := st1.rows_to_check.set index false }

/-- `Hanjie._single_pass_col`: probe column `index`; on success apply each
deduction to the grid, mark the intersecting row dirty, and clear the
column's own dirty flag. -/
def single_pass_col (st : HState) (index : Nat) : Option HState :=
  match make_deductions (colLine st index) (st.col_clues.getD index []) with
  | none => none
  | some deds =>
    let st1 := deds.foldl (fun acc d =>
      { acc with
        grid := acc.grid.set d.1 ((acc.grid.getD d.1 []).set index d.2),
        rows_to_check := acc.rows_to_check.set d.1 true }) st
    some { st1 with cols_to_check := st1.cols_to_check.set index false }

/-- Identifier of one probed line, for the probe trace of `solve`. -/
inductive LineId where
  | row (i : Nat)
  | col (i : Nat)
deriving DecidableEq

/-- The result of one pass over a family of lines: the lines probed in
order, whether anything was probed (`made_change`), the resulting state,
and whether no contradiction arose. -/
structure PassOut where
  trace : List LineId
  made : Bool
  state : HState
  ok : Bool
deriving DecidableEq

/-- The `for i, x in enumerate(self._rows_to_check)` loop of `solve`: probe
each still-dirty row in index order; on a contradiction stop at once,
leaving the state exactly as it was before the failing probe. -/
def passRows (st : HState) : List Nat → PassOut
  | [] => ⟨[], false, st, true⟩
  | i :: rest =>
    if st.rows_to_check.getD i false then
      match single_pass_row st i with
      | none => ⟨[.row i], true, st, false⟩
      | some st' =>
        let out := passRows st' rest
        ⟨.row i :: out.trace, true, out.state, out.ok⟩
    else passRows st rest

/-- The `for i, x in enumerate(self._cols_to_check)` loop of `solve`. -/
def passCols (st : HState) : List Nat → PassOut
  | [] => ⟨[], false, st, true⟩
  | i :: rest =>
    if st.cols_to_check.getD i false then
      match single_pass_col st i with
      | none => ⟨[.col i], true, st, false⟩
      | some st' =>
        let out := passCols st' rest
        ⟨.col i :: out.trace, true, out.state, out.ok⟩
    else passCols st rest

/-- One iteration of the `while True` loop of `solve`: all dirty rows,
then (if no contradiction arose) all dirty columns. -/
def runPass (st : HState) : PassOut :=
  let r := passRows st (List.range st.height)
  if r.ok then
    let c := passCols r.state (List.range r.state.width)
    ⟨r.trace ++ c.trace, r.made || c.made, c.state, c.ok⟩
  else r

/-- How `solve` ends: fixpoint reached, or the puzzle is inconsistent. -/
inductive SolveRes where
  | done
  | inconsistent
deriving DecidableEq

/-- The `while True` loop of `Hanjie.solve`, with explicit fuel: run one
pass; stop on a contradiction, stop when the pass probed nothing, and loop
otherwise.  Returns the probe trace, the final state and the outcome. -/
def solveLoop : Nat → HState → Option (List LineId × HState × SolveRes)
  | 0, _ => none
  | fuel + 1, st =>
    let p := runPass st
    if p.ok then
      if p.made then
        match solveLoop fuel p.state with
        | none => none
        | some (tr, st', r) => some (p.trace ++ tr, st', r)
      else some (p.trace, p.state, .done)
    else some (p.trace, p.state, .inconsistent)

/-- The number of as-yet-undetermined cells of the grid. -/
def countUnknowns (st : HState) : Nat :=
  (st.grid.map (fun row => row.countP (fun x => x == 0))).sum

/-- `Hanjie.solve`, run with fuel that provably suffices (see
`solveLoop_total`). -/
def solve (st : HState) : Option (List LineId × HState × SolveRes) :=
  solveLoop (countUnknowns st + 2) st

/-- Basic shape invariants of a `Hanjie` object: the grid is
`height × width` and there is one dirty flag per line. -/
def WF (st : HState) : Prop :=
  st.grid.length = st.height ∧
  (∀ row ∈ st.grid, row.length = st.width) ∧
  st.rows_to_check.length = st.height ∧
  st.cols_to_check.length = st.width

instance (st : HState) : Decidable (WF st) := by
  unfold WF
  infer_instance

end Hanjie

/-! ## Theorems -/

namespace LineSolver

/-! ### Basic facts about the instance data -/

theorem lengthS_eq (line : List Int) : lengthS line = line.length + 1 := by
  simp [lengthS, lineS]

theorem lineS_getD_lt {line : List Int} {j : Nat} (h : j < line.length) :
    (lineS line).getD j 0 = line.getD j 0 := by
  unfold lineS
  rw [List.getD_eq_getElem?_getD, List.getD_eq_getElem?_getD,
    List.getElem?_append_left h]

theorem lineS_getD_sentinel (line : List Int) :
    (lineS line).getD line.length 0 = -1 := by
  unfold lineS
  rw [List.getD_eq_getElem?_getD, List.getElem?_append_right (le_refl _)]
  simp

theorem lineS_getD_ge {line : List Int} {j : Nat} (h : lengthS line ≤ j) :
    (lineS line).getD j 0 = 0 := by
  rw [List.getD_eq_getElem?_getD, List.getElem?_eq_none (by simpa [lengthS] using h)]
  rfl

theorem shaded_lt {line : List Int} {j : Nat} (h : shaded line j) :
    j < line.length := by
  by_contra hge
  push_neg at hge
  rcases eq_or_lt_of_le hge with h1 | h1
  · rw [shaded, ← h1, lineS_getD_sentinel] at h
    exact absurd h (by norm_num)
  · rw [shaded, lineS_getD_ge (by rw [lengthS_eq]; omega)] at h
    exact absurd h (by norm_num)

theorem shaded_iff {line : List Int} {j : Nat} :
    shaded line j ↔ j < line.length ∧ line.getD j 0 = 1 := by
  constructor
  · intro h
    have hlt := shaded_lt h
    rw [shaded, lineS_getD_lt hlt] at h
    exact ⟨hlt, h⟩
  · rintro ⟨h1, h2⟩
    rw [shaded, lineS_getD_lt h1]
    exact h2

theorem no_shaded_iff {line : List Int} :
    (∀ j, ¬shaded line j) ↔ ∀ x ∈ line, x ≠ 1 := by
  constructor
  · intro h x hx h1
    obtain ⟨j, hj, hget⟩ := List.getElem_of_mem hx
    exact h j (shaded_iff.mpr ⟨hj, by rw [List.getD_eq_getElem?_getD, List.getElem?_eq_getElem hj, hget, h1]; rfl⟩)
  · intro h j hs
    rw [shaded_iff] at hs
    obtain ⟨hj, hget⟩ := hs
    refine h (line.getD j 0) ?_ hget
    rw [List.getD_eq_getElem?_getD, List.getElem?_eq_getElem hj]
    exact List.getElem_mem _

theorem lengthSuffix_headD (cs : List Nat) :
    (lengthSuffix cs).headD 0 = cs.sum + cs.length := by
  induction cs with
  | nil => simp [lengthSuffix]
  | cons c cs ih =>
    simp only [lengthSuffix, List.headD_cons, ih, List.sum_cons, List.length_cons]
    omega

theorem lengthSuffix_getD {cs : List Nat} {k : Nat} (h : k ≤ cs.length) :
    (lengthSuffix cs).getD k 0 = (cs.drop k).sum + (cs.length - k) := by
  induction cs generalizing k with
  | nil =>
    have : k = 0 := by simpa using h
    subst this
    simp [lengthSuffix]
  | cons c cs ih =>
    match k with
    | 0 =>
      show (lengthSuffix (c :: cs)).getD 0 0 = _
      simp only [lengthSuffix, List.getD_cons_zero, List.headD_cons]
      rw [lengthSuffix_headD]
      simp only [List.drop_zero, List.sum_cons, List.length_cons]
      omega
    | k + 1 =>
      simp only [lengthSuffix, List.getD_cons_succ, List.drop_succ_cons]
      rw [ih (by simpa using h)]
      simp

theorem reject_iff {line : List Int} {clues : List Nat} {c k : Nat}
    (hk : k ≤ clues.length) :
    reject line clues (c, k) = true ↔
      lengthS line < c + (clues.drop k).sum + (clues.length - k) := by
  unfold reject
  rw [decide_eq_true_iff]
  simp only [lengthSuffix_getD hk]
  omega

theorem mem_shadedFrom {l : List Int} {i : Nat} {x : Int} :
    x ∈ shadedFrom i l ↔ ∃ j, j < l.length ∧ l.getD j 0 = 1 ∧ x = (i : Int) + j := by
  induction l generalizing i with
  | nil => simp [shadedFrom]
  | cons a t ih =>
    by_cases ha : a = 1
    · simp only [shadedFrom, if_pos ha, List.mem_cons, ih]
      constructor
      · rintro (rfl | ⟨j, hj, hget, rfl⟩)
        · exact ⟨0, by simp, by simpa using ha, by simp⟩
        · exact ⟨j + 1, by simpa using hj, by simpa using hget, by push_cast; ring⟩
      · rintro ⟨j, hj, hget, rfl⟩
        match j with
        | 0 => left; simp
        | j + 1 =>
          right
          refine ⟨j, by simpa using hj, by simpa using hget, by push_cast; ring⟩
    · simp only [shadedFrom, if_neg ha, ih]
      constructor
      · rintro ⟨j, hj, hget, rfl⟩
        exact ⟨j + 1, by simpa using hj, by simpa using hget, by push_cast; ring⟩
      · rintro ⟨j, hj, hget, rfl⟩
        match j with
        | 0 => exact absurd (by simpa using hget) ha
        | j + 1 =>
          exact ⟨j, by simpa using hj, by simpa using hget, by push_cast; ring⟩

theorem mem_shadedPos {line : List Int} {x : Int} :
    x ∈ shadedPos line ↔ x = -1 ∨ ∃ j : Nat, shaded line j ∧ x = j := by
  unfold shadedPos
  simp only [List.mem_cons, mem_shadedFrom]
  constructor
  · rintro (rfl | ⟨j, hj, hget, rfl⟩)
    · left; rfl
    · right
      exact ⟨j, hget, by simp⟩
  · rintro (rfl | ⟨j, hj, rfl⟩)
    · left; rfl
    · right
      have hjlt : j < (lineS line).length := by
        have := shaded_lt hj
        simp [lineS]; omega
      exact ⟨j, hjlt, hj, by simp⟩

theorem shadedPos_pairwise (line : List Int) :
    (shadedPos line).Pairwise (· < ·) := by
  have key : ∀ (l : List Int) (i : Nat), (shadedFrom i l).Pairwise (· < ·) := by
    intro l
    induction l with
    | nil => intro i; simp [shadedFrom]
    | cons a t ih =>
      intro i
      by_cases ha : a = 1
      · simp only [shadedFrom, if_pos ha]
        refine List.Pairwise.cons ?_ (ih (i + 1))
        intro x hx
        obtain ⟨j, _, _, rfl⟩ := mem_shadedFrom.mp hx
        push_cast
        omega
      · simp only [shadedFrom, if_neg ha]
        exact ih (i + 1)
  refine List.Pairwise.cons ?_ (key _ 0)
  intro x hx
  obtain ⟨j, _, _, rfl⟩ := mem_shadedFrom.mp hx
  push_cast
  omega

theorem getLastD_mem : ∀ (l : List Int), l ≠ [] → ∀ d : Int, l.getLastD d ∈ l
  | [a], _, d => by simp
  | a :: b :: t, _, d => by
    rw [List.getLastD_cons]
    exact List.mem_cons_of_mem a (getLastD_mem (b :: t) (by simp) a)

theorem le_getLastD_of_pairwise {l : List Int} (hl : l.Pairwise (· < ·)) (d : Int) :
    ∀ x ∈ l, x ≤ l.getLastD d := by
  induction l with
  | nil => simp
  | cons a t ih =>
    intro x hx
    rw [List.getLastD_cons]
    match t with
    | [] =>
      simp at hx
      simp [hx]
    | b :: t' =>
      rcases List.mem_cons.mp hx with rfl | hx'
      · have hab : x < b := (List.pairwise_cons.mp hl).1 b (by simp)
        have := ih (List.pairwise_cons.mp hl).2 b (by simp)
        rw [List.getLastD_cons] at this ⊢
        omega
      · exact ih (List.pairwise_cons.mp hl).2 x hx'

theorem getD_countP_of_pairwise {l : List Int} (x d : Int)
    (hl : l.Pairwise (· < ·)) :
    (l.getD (l.countP (fun y => decide (y < x))) d = d ∧ ∀ y ∈ l, y < x) ∨
    (∃ y, y ∈ l ∧ l.getD (l.countP (fun y => decide (y < x))) d = y ∧ x ≤ y ∧
      ∀ z ∈ l, x ≤ z → y ≤ z) := by
  induction l with
  | nil => left; simp
  | cons h t ih =>
    obtain ⟨hht, ht⟩ := List.pairwise_cons.mp hl
    by_cases hx : h < x
    · rw [List.countP_cons_of_pos _ _ (by simpa using hx)]
      rw [show t.countP (fun y => decide (y < x)) + 1 = (t.countP (fun y => decide (y < x))).succ from rfl]
      rw [List.getD_cons_succ]
      rcases ih ht with ⟨h1, h2⟩ | ⟨y, hy, he, hxy, hmin⟩
      · left
        refine ⟨h1, fun y hy => ?_⟩
        rcases List.mem_cons.mp hy with rfl | hy'
        · exact hx
        · exact h2 y hy'
      · right
        refine ⟨y, List.mem_cons_of_mem _ hy, he, hxy, fun z hz hxz => ?_⟩
        rcases List.mem_cons.mp hz with rfl | hz'
        · omega
        · exact hmin z hz' hxz
    · have hcount : (h :: t).countP (fun y => decide (y < x)) = 0 := by
        rw [List.countP_eq_zero]
        intro z hz
        rcases List.mem_cons.mp hz with rfl | hz'
        · simpa using hx
        · have := hht z hz'
          simp only [decide_eq_true_eq]
          omega
      rw [hcount, List.getD_cons_zero]
      right
      refine ⟨h, by simp, rfl, by omega, fun z hz _ => ?_⟩
      rcases List.mem_cons.mp hz with rfl | hz'
      · exact le_refl _
      · exact le_of_lt (hht z hz')

theorem fscOf_spec (line : List Int) (c : Nat) :
    (fscOf line c = (lengthS line : Int) ∧ ∀ j, c ≤ j → ¬shaded line j) ∨
    (∃ j0 : Nat, fscOf line c = (j0 : Int) ∧ shaded line j0 ∧ c ≤ j0 ∧
      ∀ j, c ≤ j → shaded line j → j0 ≤ j) := by
  unfold fscOf bisectLeft
  rcases getD_countP_of_pairwise (c : Int) (lengthS line : Int)
      (shadedPos_pairwise line) with ⟨h1, h2⟩ | ⟨y, hy, he, hxy, hmin⟩
  · left
    refine ⟨h1, fun j hj hs => ?_⟩
    have := h2 _ (mem_shadedPos.mpr (Or.inr ⟨j, hs, rfl⟩))
    omega
  · right
    rcases mem_shadedPos.mp hy with rfl | ⟨j0, hj0, rfl⟩
    · omega
    · refine ⟨j0, he, hj0, by exact_mod_cast hxy, fun j hj hs => ?_⟩
      have := hmin _ (mem_shadedPos.mpr (Or.inr ⟨j, hs, rfl⟩)) (by exact_mod_cast hj)
      exact_mod_cast this

theorem slice_all_iff {l : List Int} {a b : Nat} {P : Int → Bool}
    (h : a + b ≤ l.length) :
    (((l.drop a).take b).all P = true) ↔
      ∀ j, a ≤ j → j < a + b → P (l.getD j 0) = true := by
  rw [List.all_eq_true]
  constructor
  · intro hall j hj1 hj2
    have hjl : j < l.length := by omega
    have hmem : l.getD j 0 ∈ (l.drop a).take b := by
      rw [List.mem_iff_getElem]
      refine ⟨j - a, ?_, ?_⟩
      · simp only [List.length_take, List.length_drop]
        omega
      · rw [List.getElem_take, List.getElem_drop]
        rw [List.getD_eq_getElem _ _ hjl]
        congr 1
        omega
    exact hall _ hmem
  · intro hall x hx
    rw [List.mem_iff_getElem] at hx
    obtain ⟨m, hm, rfl⟩ := hx
    simp only [List.length_take, List.length_drop] at hm
    rw [List.getElem_take, List.getElem_drop]
    have : l[a + m] = l.getD (a + m) 0 := (List.getD_eq_getElem _ _ (by omega)).symm
    rw [this]
    exact hall (a + m) (by omega) (by omega)

theorem isAllowed_iff {line : List Int} {sz p : Nat} (hsz : sz ≤ p)
    (hp : p ≤ lengthS line) :
    isAllowed line sz p = true ↔
      ((lineS line).getD p 0 ≠ 1 ∧
        ∀ j, p - sz ≤ j → j < p → (lineS line).getD j 0 ≠ -1) := by
  unfold isAllowed
  rw [Bool.and_eq_true]
  constructor
  · rintro ⟨h1, h2⟩
    refine ⟨by simpa using h1, fun j hj1 hj2 => ?_⟩
    have := (slice_all_iff (l := lineS line) (a := p - sz) (b := sz)
      (by simp only [lengthS] at hp; omega)).mp h2 j hj1 (by omega)
    simpa using this
  · rintro ⟨h1, h2⟩
    refine ⟨by simpa using h1, ?_⟩
    rw [slice_all_iff (by simp only [lengthS] at hp; omega)]
    intro j hj1 hj2
    have := h2 j hj1 (by omega)
    simpa using this

theorem accept_iff {line : List Int} {clues : List Nat} {c k : Nat} :
    accept line clues (c, k) = true ↔
      k = clues.length ∧ ∀ j, shaded line j → j < c := by
  unfold accept
  rw [decide_eq_true_iff]
  constructor
  · rintro ⟨hk, hc⟩
    refine ⟨hk, fun j hj => ?_⟩
    have hmem : (j : Int) ∈ shadedPos line := mem_shadedPos.mpr (Or.inr ⟨j, hj, rfl⟩)
    have := le_getLastD_of_pairwise (shadedPos_pairwise line) (-1) _ hmem
    omega
  · rintro ⟨hk, hall⟩
    refine ⟨hk, ?_⟩
    have hmem := getLastD_mem (shadedPos line) (by simp [shadedPos]) (-1)
    rcases mem_shadedPos.mp hmem with heq | ⟨j, hj, heq⟩
    · rw [heq]; omega
    · rw [heq]
      have := hall j hj
      omega

end LineSolver

namespace LineSolver

/-! ### Structural lemmas about `SatP` -/

theorem satP_space {line : List Int} {cs : List Nat} :
    ∀ {c : Nat}, SatP line c cs → c ≤ lengthS line →
      c + cs.sum + cs.length ≤ lengthS line := by
  induction cs with
  | nil =>
    intro c _ hc
    simpa using hc
  | cons sz rest ih =>
    intro c h _
    obtain ⟨s, hcs, hfit, _, _, _, htail⟩ := h
    have := ih htail (by omega)
    simp only [List.sum_cons, List.length_cons]
    omega

/-- `SatP` only depends on the cells at positions `≥ c` (given equal
lengths). -/
theorem satP_congr {l1 l2 : List Int} (hlen : lengthS l1 = lengthS l2) {cs : List Nat} :
    ∀ {c : Nat}, (∀ j, c ≤ j → (lineS l1).getD j 0 = (lineS l2).getD j 0) →
      (SatP l1 c cs ↔ SatP l2 c cs) := by
  induction cs with
  | nil =>
    intro c hsame
    show (∀ j, c ≤ j → ¬shaded l1 j) ↔ ∀ j, c ≤ j → ¬shaded l2 j
    constructor <;> intro h j hj <;> have := h j hj <;>
      simp only [shaded] at this ⊢
    · rw [← hsame j hj]; exact this
    · rw [hsame j hj]; exact this
  | cons sz rest ih =>
    intro c hsame
    constructor
    · rintro ⟨s, hcs, hfit, hgap, hblk, hnots, htail⟩
      refine ⟨s, hcs, by omega, ?_, ?_, ?_, ?_⟩
      · intro j hj1 hj2
        have := hgap j hj1 hj2
        simp only [shaded] at this ⊢
        rw [← hsame j hj1]; exact this
      · intro j hj1 hj2
        rw [← hsame j (by omega)]; exact hblk j hj1 hj2
      · simp only [shaded] at hnots ⊢
        rw [← hsame (s + sz) (by omega)]; exact hnots
      · exact (ih (fun j hj => hsame j (by omega))).mp htail
    · rintro ⟨s, hcs, hfit, hgap, hblk, hnots, htail⟩
      refine ⟨s, hcs, by omega, ?_, ?_, ?_, ?_⟩
      · intro j hj1 hj2
        have := hgap j hj1 hj2
        simp only [shaded] at this ⊢
        rw [hsame j hj1]; exact this
      · intro j hj1 hj2
        rw [hsame j (by omega)]; exact hblk j hj1 hj2
      · simp only [shaded] at hnots ⊢
        rw [hsame (s + sz) (by omega)]; exact hnots
      · exact (ih (fun j hj => hsame j (by omega))).mpr htail

/-- Move the left edge of a `SatP` scope down across a shaded-free region. -/
theorem satP_weaken {line : List Int} {cs : List Nat} {c1 c2 : Nat}
    (h : SatP line c2 cs) (hle : c1 ≤ c2)
    (hfree : ∀ j, c1 ≤ j → j < c2 → ¬shaded line j) :
    SatP line c1 cs := by
  match cs with
  | [] =>
    intro j hj
    rcases lt_or_le j c2 with hlt | hge
    · exact hfree j hj hlt
    · exact h j hge
  | sz :: rest =>
    obtain ⟨s, hcs, hfit, hgap, hblk, hnots, htail⟩ := h
    refine ⟨s, by omega, hfit, ?_, hblk, hnots, htail⟩
    intro j hj1 hj2
    rcases lt_or_le j c2 with hlt | hge
    · exact hfree j hj1 hlt
    · exact hgap j hge hj2

end LineSolver

namespace LineSolver

/-! ### The child generator -/

section ChildrenLemmas

variable {line : List Int} {k sz : Nat} {lastCell : Int} {e : Nat}

theorem childrenScan_eq_of_gt (h : (e : Int) > lastCell) :
    childrenScan line k sz lastCell e = [] := by
  rw [childrenScan]
  simp [h]

theorem childrenScan_eq_cons (h1 : ¬(e : Int) > lastCell)
    (h2 : isAllowed line sz e = true) :
    childrenScan line k sz lastCell e =
      (e + 1, k + 1) :: childrenAdvance line k sz lastCell e := by
  rw [childrenScan, dif_neg h1, if_pos h2]

theorem childrenScan_eq_skip (h1 : ¬(e : Int) > lastCell)
    (h2 : ¬isAllowed line sz e = true) :
    childrenScan line k sz lastCell e = childrenScan line k sz lastCell (e + 1) := by
  rw [childrenScan, dif_neg h1, if_neg h2]

theorem childrenAdvance_eq_of_gt (h : (e : Int) > lastCell) :
    childrenAdvance line k sz lastCell e = [] := by
  rw [childrenAdvance]
  simp [h]

theorem childrenAdvance_eq_hit (h1 : ¬(e : Int) > lastCell)
    (h2 : (lineS line).getD e 0 = 1) :
    childrenAdvance line k sz lastCell e = childrenScan line k sz lastCell (e + 1) := by
  rw [childrenAdvance, dif_neg h1, if_pos h2]

theorem childrenAdvance_eq_step (h1 : ¬(e : Int) > lastCell)
    (h2 : ¬(lineS line).getD e 0 = 1) :
    childrenAdvance line k sz lastCell e = childrenAdvance line k sz lastCell (e + 1) := by
  rw [childrenAdvance, dif_neg h1, if_neg h2]

theorem childrenScan_mem (line : List Int) (k sz : Nat) (lastCell : Int) :
    (∀ e, ∀ nd ∈ childrenScan line k sz lastCell e,
      ∃ p, nd = (p + 1, k + 1) ∧ e ≤ p ∧ (p : Int) ≤ lastCell ∧
        isAllowed line sz p = true) ∧
    (∀ e, ∀ nd ∈ childrenAdvance line k sz lastCell e,
      ∃ p, nd = (p + 1, k + 1) ∧ e + 1 ≤ p ∧ (p : Int) ≤ lastCell ∧
        isAllowed line sz p = true) := by
  apply childrenScan.mutual_induct line k sz lastCell
  · intro e h nd hnd
    rw [childrenScan_eq_of_gt h] at hnd
    simp at hnd
  · intro e h1 h2 ih nd hnd
    rw [childrenScan_eq_cons h1 h2] at hnd
    rcases List.mem_cons.mp hnd with rfl | hnd'
    · exact ⟨e, rfl, le_refl _, by omega, h2⟩
    · obtain ⟨p, rfl, hp1, hp2, hp3⟩ := ih nd hnd'
      exact ⟨p, rfl, by omega, hp2, hp3⟩
  · intro e h1 h2 ih nd hnd
    rw [childrenScan_eq_skip h1 h2] at hnd
    obtain ⟨p, rfl, hp1, hp2, hp3⟩ := ih nd hnd
    exact ⟨p, rfl, by omega, hp2, hp3⟩
  · intro e h nd hnd
    rw [childrenAdvance_eq_of_gt h] at hnd
    simp at hnd
  · intro e h1 h2 ih nd hnd
    rw [childrenAdvance_eq_hit h1 h2] at hnd
    obtain ⟨p, rfl, hp1, hp2, hp3⟩ := ih nd hnd
    exact ⟨p, rfl, by omega, hp2, hp3⟩
  · intro e h1 h2 ih nd hnd
    rw [childrenAdvance_eq_step h1 h2] at hnd
    obtain ⟨p, rfl, hp1, hp2, hp3⟩ := ih nd hnd
    exact ⟨p, rfl, by omega, hp2, hp3⟩

theorem childrenScan_len (line : List Int) (k sz : Nat) (lastCell : Int) :
    (∀ e, (childrenScan line k sz lastCell e).length ≤
      (lastCell + 1 - (e : Int)).toNat) ∧
    (∀ e, (childrenAdvance line k sz lastCell e).length ≤
      (lastCell - (e : Int)).toNat) := by
  apply childrenScan.mutual_induct line k sz lastCell
  · intro e h
    rw [childrenScan_eq_of_gt h]
    simp
  · intro e h1 h2 ih
    rw [childrenScan_eq_cons h1 h2]
    simp only [List.length_cons]
    omega
  · intro e h1 h2 ih
    rw [childrenScan_eq_skip h1 h2]
    push_cast at ih ⊢
    omega
  · intro e h
    rw [childrenAdvance_eq_of_gt h]
    simp
  · intro e h1 h2 ih
    rw [childrenAdvance_eq_hit h1 h2]
    push_cast at ih ⊢
    omega
  · intro e h1 h2 ih
    rw [childrenAdvance_eq_step h1 h2]
    push_cast at ih ⊢
    omega

theorem childrenScan_sorted (line : List Int) (k sz : Nat) (lastCell : Int) :
    (∀ e, (childrenScan line k sz lastCell e).Pairwise (fun a b => a.1 < b.1) ∧
      ∀ nd ∈ childrenScan line k sz lastCell e, e + 1 ≤ nd.1) ∧
    (∀ e, (childrenAdvance line k sz lastCell e).Pairwise (fun a b => a.1 < b.1) ∧
      ∀ nd ∈ childrenAdvance line k sz lastCell e, e + 2 ≤ nd.1) := by
  apply childrenScan.mutual_induct line k sz lastCell
  · intro e h
    rw [childrenScan_eq_of_gt h]
    simp
  · intro e h1 h2 ih
    rw [childrenScan_eq_cons h1 h2]
    refine ⟨List.Pairwise.cons (fun nd hnd => ?_) ih.1, ?_⟩
    · have := ih.2 nd hnd
      simp only
      omega
    · intro nd hnd
      rcases List.mem_cons.mp hnd with rfl | hnd'
      · simp
      · have := ih.2 nd hnd'
        omega
  · intro e h1 h2 ih
    rw [childrenScan_eq_skip h1 h2]
    exact ⟨ih.1, fun nd hnd => by have := ih.2 nd hnd; omega⟩
  · intro e h
    rw [childrenAdvance_eq_of_gt h]
    simp
  · intro e h1 h2 ih
    rw [childrenAdvance_eq_hit h1 h2]
    exact ⟨ih.1, fun nd hnd => by have := ih.2 nd hnd; omega⟩
  · intro e h1 h2 ih
    rw [childrenAdvance_eq_step h1 h2]
    exact ⟨ih.1, fun nd hnd => by have := ih.2 nd hnd; omega⟩

theorem childrenScan_complete (line : List Int) (k sz : Nat) (lastCell : Int)
    (p : Nat) (hp1 : (p : Int) ≤ lastCell) (hp2 : isAllowed line sz p = true) :
    (∀ e, e ≤ p →
      ∃ q, (q + 1, k + 1) ∈ childrenScan line k sz lastCell e ∧ q ≤ p ∧
        ∀ j, q + 1 ≤ j → j < p → ¬shaded line j) ∧
    (∀ e, (∃ x, shaded line x ∧ e ≤ x ∧ x < p) →
      ∃ q, (q + 1, k + 1) ∈ childrenAdvance line k sz lastCell e ∧ q ≤ p ∧
        ∀ j, q + 1 ≤ j → j < p → ¬shaded line j) := by
  apply childrenScan.mutual_induct line k sz lastCell
  · intro e h hep
    exfalso
    have : (e : Int) ≤ (p : Int) := by exact_mod_cast hep
    omega
  · intro e h1 h2 ih hep
    by_cases hns : ∃ x, shaded line x ∧ e + 1 ≤ x ∧ x < p
    · obtain ⟨q, hq1, hq2, hq3⟩ := ih ⟨hns.choose, hns.choose_spec.1, by
        have := hns.choose_spec.2.1; omega, hns.choose_spec.2.2⟩
      rw [childrenScan_eq_cons h1 h2]
      exact ⟨q, List.mem_cons_of_mem _ hq1, hq2, hq3⟩
    · push_neg at hns
      rw [childrenScan_eq_cons h1 h2]
      refine ⟨e, by simp, hep, fun j hj1 hj2 hs => ?_⟩
      have := hns j hs hj1
      omega
  · intro e h1 h2 ih hep
    have hne : e ≠ p := by
      rintro rfl
      exact h2 hp2
    rw [childrenScan_eq_skip h1 h2]
    exact ih (by omega)
  · intro e h hx
    exfalso
    obtain ⟨x, hx1, hx2, hx3⟩ := hx
    have : (x : Int) < (p : Int) := by exact_mod_cast hx3
    have : (e : Int) ≤ (x : Int) := by exact_mod_cast hx2
    omega
  · intro e h1 h2 ih hx
    obtain ⟨x, hx1, hx2, hx3⟩ := hx
    rw [childrenAdvance_eq_hit h1 h2]
    exact ih (by omega)
  · intro e h1 h2 ih hx
    obtain ⟨x, hx1, hx2, hx3⟩ := hx
    rw [childrenAdvance_eq_step h1 h2]
    refine ih ⟨x, hx1, ?_, hx3⟩
    rcases Nat.eq_or_lt_of_le hx2 with rfl | hlt
    · exact absurd hx1 h2
    · omega

end ChildrenLemmas

end LineSolver

namespace LineSolver

/-! ### The children of a node -/

theorem children_eq {line : List Int} {clues : List Nat} {c k : Nat}
    (hk : k ≠ clues.length) :
    children line clues (c, k) =
      childrenScan line k (clues.getD k 0) (lastCellOf line clues c k)
        (c + clues.getD k 0) := by
  simp only [children, lastCellOf, fscOf, if_neg hk]

theorem children_eq_nil {line : List Int} {clues : List Nat} {c : Nat} :
    children line clues (c, clues.length) = [] := by
  simp [children]

theorem children_sound {line : List Int} {clues : List Nat} {c k : Nat}
    {nd : Nat × Nat} (hnd : nd ∈ children line clues (c, k)) :
    k ≠ clues.length ∧
    ∃ p, nd = (p + 1, k + 1) ∧ c + clues.getD k 0 ≤ p ∧
      (p : Int) ≤ lastCellOf line clues c k ∧
      isAllowed line (clues.getD k 0) p = true := by
  by_cases hk : k = clues.length
  · subst hk
    rw [children_eq_nil] at hnd
    simp at hnd
  · rw [children_eq hk] at hnd
    exact ⟨hk, (childrenScan_mem line k _ _).1 _ nd hnd⟩

theorem lastCellOf_le {line : List Int} {clues : List Nat} {c k : Nat} :
    lastCellOf line clues c k ≤ (lengthS line : Int) - 1 :=
  min_le_left _ _

theorem children_cursor_bounds {line : List Int} {clues : List Nat}
    {c k : Nat} {nd : Nat × Nat} (hnd : nd ∈ children line clues (c, k)) :
    c < nd.1 ∧ nd.1 ≤ lengthS line := by
  obtain ⟨hk, p, rfl, hp1, hp2, hp3⟩ := children_sound hnd
  have h1 := @lastCellOf_le line clues c k
  constructor
  · simp only
    omega
  · simp only
    omega

theorem children_length {line : List Int} {clues : List Nat} {c k : Nat} :
    (children line clues (c, k)).length ≤ lengthS line := by
  by_cases hk : k = clues.length
  · subst hk
    rw [children_eq_nil]
    simp
  · rw [children_eq hk]
    have h1 := (childrenScan_len line k (clues.getD k 0)
      (lastCellOf line clues c k)).1 (c + clues.getD k 0)
    have h2 := @lastCellOf_le line clues c k
    omega

theorem children_sorted {line : List Int} {clues : List Nat} {c k : Nat} :
    (children line clues (c, k)).Pairwise (fun a b => a.1 < b.1) := by
  by_cases hk : k = clues.length
  · subst hk
    rw [children_eq_nil]
    simp
  · rw [children_eq hk]
    exact ((childrenScan_sorted line k _ _).1 _).1

theorem children_complete {line : List Int} {clues : List Nat} {c k p : Nat}
    (hk : k ≠ clues.length) (hp0 : c + clues.getD k 0 ≤ p)
    (hp1 : (p : Int) ≤ lastCellOf line clues c k)
    (hp2 : isAllowed line (clues.getD k 0) p = true) :
    ∃ q, (q + 1, k + 1) ∈ children line clues (c, k) ∧ q ≤ p ∧
      ∀ j, q + 1 ≤ j → j < p → ¬shaded line j := by
  rw [children_eq hk]
  exact (childrenScan_complete line k _ _ p hp1 hp2).1 _ hp0

theorem childrenB_eq (line : List Int) (clues : List Nat) (nd : Nat × Nat) :
    childrenB line clues nd = children line clues nd := by
  unfold childrenB
  rw [List.filter_eq_self]
  intro x hx
  obtain ⟨c, k⟩ := nd
  have := children_cursor_bounds hx
  simpa using this

end LineSolver

namespace LineSolver

/-! ### The recursive search -/

theorem attach_map_eq {α β : Type} (l : List α) (f : α → β) :
    (l.attach.map (fun x => f x.1)) = l.map f := by
  induction l with
  | nil => simp
  | cons a t ih => simp [ih]

theorem searchNode_unfold (line : List Int) (clues : List Nat) (nd : Nat × Nat) :
    searchNode line clues nd =
      if reject line clues nd then .aborted
      else if accept line clues nd then .found
      else firstSR ((children line clues nd).map (searchNode line clues)) := by
  rw [searchNode]
  by_cases h1 : reject line clues nd
  · simp [h1]
  · by_cases h2 : accept line clues nd
    · simp [h1, h2]
    · simp only [if_neg h1, if_neg h2]
      rw [childrenB_eq, attach_map_eq]

theorem searchNode_of_reject {line : List Int} {clues : List Nat}
    {nd : Nat × Nat} (h : reject line clues nd = true) :
    searchNode line clues nd = .aborted := by
  rw [searchNode_unfold, if_pos h]

theorem searchNode_of_accept {line : List Int} {clues : List Nat}
    {nd : Nat × Nat} (h1 : ¬reject line clues nd = true)
    (h2 : accept line clues nd = true) :
    searchNode line clues nd = .found := by
  rw [searchNode_unfold, if_neg h1, if_pos h2]

theorem searchNode_of_children {line : List Int} {clues : List Nat}
    {nd : Nat × Nat} (h1 : ¬reject line clues nd = true)
    (h2 : ¬accept line clues nd = true) :
    searchNode line clues nd =
      firstSR ((children line clues nd).map (searchNode line clues)) := by
  rw [searchNode_unfold, if_neg h1, if_neg h2]

theorem searchNodeP_unfold (line : List Int) (clues : List Nat) (nd : Nat × Nat) :
    searchNodeP line clues nd =
      if reject line clues nd then false
      else if accept line clues nd then true
      else (children line clues nd).any (searchNodeP line clues) := by
  rw [searchNodeP]
  by_cases h1 : reject line clues nd
  · simp [h1]
  · by_cases h2 : accept line clues nd
    · simp [h1, h2]
    · simp only [if_neg h1, if_neg h2]
      rw [childrenB_eq]
      rw [List.any_eq, List.any_eq]
      simp

/-! ### Combining subsearch results -/

theorem firstSR_append (a b : List SR) :
    firstSR (a ++ b) = match firstSR a with
      | .exhausted => firstSR b
      | r => r := by
  induction a with
  | nil => simp [firstSR]
  | cons r rs ih =>
    cases r
    · simp only [List.cons_append, firstSR]
    · simpa only [List.cons_append, firstSR] using ih
    · simp only [List.cons_append, firstSR]

theorem firstSR_eq_exhausted_iff {l : List SR} :
    firstSR l = .exhausted ↔ ∀ r ∈ l, r = .exhausted := by
  induction l with
  | nil => simp [firstSR]
  | cons r rs ih =>
    cases r
    · simp [firstSR]
    · simpa [firstSR] using ih
    · simp [firstSR]

theorem firstSR_map_found {α : Type} {l : List α} {f : α → SR}
    (h : firstSR (l.map f) = .found) : ∃ x ∈ l, f x = .found := by
  induction l with
  | nil => simp [firstSR] at h
  | cons a t ih =>
    simp only [List.map_cons] at h
    match hfa : f a with
    | .found => exact ⟨a, by simp, hfa⟩
    | .aborted => rw [hfa, firstSR] at h; exact absurd h (by simp)
    | .exhausted =>
      rw [hfa, firstSR] at h
      obtain ⟨x, hx, hfx⟩ := ih h
      exact ⟨x, List.mem_cons_of_mem _ hx, hfx⟩

theorem firstSR_map_aborted {α : Type} {l : List α} {f : α → SR}
    (h : firstSR (l.map f) = .aborted) :
    ∃ l1 x l2, l = l1 ++ x :: l2 ∧ f x = .aborted ∧
      ∀ y ∈ l1, f y = .exhausted := by
  induction l with
  | nil => simp [firstSR] at h
  | cons a t ih =>
    simp only [List.map_cons] at h
    match hfa : f a with
    | .found => rw [hfa, firstSR] at h; exact absurd h (by simp)
    | .aborted => exact ⟨[], a, t, by simp, hfa, by simp⟩
    | .exhausted =>
      rw [hfa, firstSR] at h
      obtain ⟨l1, x, l2, rfl, hfx, hall⟩ := ih h
      refine ⟨a :: l1, x, l2, by simp, hfx, fun y hy => ?_⟩
      rcases List.mem_cons.mp hy with rfl | hy'
      · exact hfa
      · exact hall y hy'

theorem firstSR_map_of_decomp {α : Type} {l1 l2 : List α} {x : α} {f : α → SR}
    (hall : ∀ y ∈ l1, f y = .exhausted) (hx : f x ≠ .exhausted) :
    firstSR ((l1 ++ x :: l2).map f) = f x := by
  induction l1 with
  | nil =>
    simp only [List.nil_append, List.map_cons]
    match hfx : f x with
    | .found => simp [firstSR]
    | .aborted => simp [firstSR]
    | .exhausted => exact absurd hfx hx
  | cons a t ih =>
    simp only [List.cons_append, List.map_cons]
    rw [hall a (by simp), firstSR]
    exact ih (fun y hy => hall y (List.mem_cons_of_mem _ hy))

theorem exists_first_decomp {α : Type} {l : List α} {P : α → Prop}
    (h : ∃ x ∈ l, P x) :
    ∃ l1 x l2, l = l1 ++ x :: l2 ∧ P x ∧ ∀ y ∈ l1, ¬P y := by
  induction l with
  | nil => simp at h
  | cons a t ih =>
    by_cases ha : P a
    · exact ⟨[], a, t, by simp, ha, by simp⟩
    · obtain ⟨x, hx, hPx⟩ := h
      rcases List.mem_cons.mp hx with rfl | hx'
      · exact absurd hPx ha
      · obtain ⟨l1, y, l2, rfl, hPy, hall⟩ := ih ⟨x, hx', hPx⟩
        refine ⟨a :: l1, y, l2, by simp, hPy, fun z hz => ?_⟩
        rcases List.mem_cons.mp hz with rfl | hz'
        · exact ha
        · exact hall z hz'

/-! ### The stack result -/

theorem nodesResult_eq_firstSR (line : List Int) (clues : List Nat)
    (stack : List (Nat × Nat)) :
    nodesResult line clues stack = firstSR (stack.map (searchNode line clues)) := by
  induction stack with
  | nil => rfl
  | cons nd rest ih =>
    rw [nodesResult, List.map_cons]
    match h : searchNode line clues nd with
    | .found => simp [firstSR]
    | .aborted => simp [firstSR]
    | .exhausted => simpa [firstSR] using ih

theorem nodesResult_append (line : List Int) (clues : List Nat)
    (a b : List (Nat × Nat)) :
    nodesResult line clues (a ++ b) =
      match nodesResult line clues a with
      | .exhausted => nodesResult line clues b
      | r => r := by
  rw [nodesResult_eq_firstSR, nodesResult_eq_firstSR, nodesResult_eq_firstSR,
    List.map_append, firstSR_append]

theorem nodesResult_exhausted_iff {line : List Int} {clues : List Nat}
    {stack : List (Nat × Nat)} :
    nodesResult line clues stack = .exhausted ↔
      ∀ nd ∈ stack, searchNode line clues nd = .exhausted := by
  rw [nodesResult_eq_firstSR, firstSR_eq_exhausted_iff]
  constructor
  · intro h nd hnd
    exact h _ (List.mem_map_of_mem _ hnd)
  · intro h r hr
    obtain ⟨nd, hnd, rfl⟩ := List.mem_map.mp hr
    exact h nd hnd

theorem dupPushes_nil {α : Type} : dupPushes ([] : List α) = [] := rfl

theorem dupPushes_cons {α : Type} (x : α) (xs : List α) :
    dupPushes (x :: xs) = (x :: xs) ++ dupPushes (x :: xs).dropLast := by
  have h : (x :: xs).dropLast.length = xs.length := by simp
  simp only [dupPushes, List.length_cons, h, dupPushesAux]

theorem dupPushes_subset {α : Type} : ∀ (l : List α), dupPushes l ⊆ l := by
  intro l
  generalize hl : l.length = n
  induction n generalizing l with
  | zero =>
    match l with
    | [] => rw [dupPushes_nil]; exact fun a ha => ha
  | succ n ih =>
    match l with
    | x :: xs =>
      rw [dupPushes_cons]
      intro a ha
      rcases List.mem_append.mp ha with h1 | h2
      · exact h1
      · have hsub := ih ((x :: xs).dropLast) (by simp at hl ⊢; omega)
        exact (List.dropLast_sublist (x :: xs)).subset (hsub h2)

theorem nodesResult_dupPushes (line : List Int) (clues : List Nat) :
    ∀ (l : List (Nat × Nat)),
      nodesResult line clues (dupPushes l) = nodesResult line clues l := by
  intro l
  generalize hl : l.length = n
  induction n generalizing l with
  | zero =>
    match l with
    | [] => rw [dupPushes_nil]
  | succ n ih =>
    match l with
    | x :: xs =>
      rw [dupPushes_cons, nodesResult_append]
      cases hr : nodesResult line clues (x :: xs) with
      | found => rfl
      | aborted => rfl
      | exhausted =>
        rw [ih ((x :: xs).dropLast) (by simp at hl ⊢; omega)]
        rw [nodesResult_exhausted_iff] at hr ⊢
        intro nd hnd
        exact hr nd ((List.dropLast_sublist (x :: xs)).subset hnd)

end LineSolver

namespace LineSolver

/-! ### Fuel accounting for the iterative drivers -/

theorem nodeWeight_pos (line : List Int) (nd : Nat × Nat) :
    1 ≤ nodeWeight line nd :=
  Nat.one_le_pow _ _ (by omega)

theorem weightSum_cons (line : List Int) (nd : Nat × Nat)
    (rest : List (Nat × Nat)) :
    weightSum line (nd :: rest) = nodeWeight line nd + weightSum line rest := by
  simp [weightSum]

theorem weightSum_append (line : List Int) (a b : List (Nat × Nat)) :
    weightSum line (a ++ b) = weightSum line a + weightSum line b := by
  simp [weightSum]

theorem dupPushes_length {α : Type} : ∀ (l : List α),
    (dupPushes l).length ≤ l.length * l.length := by
  intro l
  generalize hl : l.length = n
  induction n generalizing l with
  | zero =>
    match l with
    | [] => rw [dupPushes_nil]; simp
  | succ n ih =>
    match l with
    | x :: xs =>
      rw [dupPushes_cons]
      simp only [List.length_append, List.length_cons]
      have h1 := ih ((x :: xs).dropLast) (by simp at hl ⊢; omega)
      simp only [List.length_dropLast, List.length_cons] at h1
      simp at hl
      subst hl
      simp
      nlinarith

theorem sum_le_length_mul {α : Type} (l : List α) (f : α → Nat) (b : Nat)
    (h : ∀ x ∈ l, f x ≤ b) : (l.map f).sum ≤ l.length * b := by
  induction l with
  | nil => simp
  | cons a t ih =>
    simp only [List.map_cons, List.sum_cons, List.length_cons]
    have := h a (by simp)
    have := ih (fun x hx => h x (List.mem_cons_of_mem _ hx))
    nlinarith

theorem children_eq_nil_of_ge {line : List Int} {clues : List Nat} {c k : Nat}
    (h : lengthS line ≤ c) : children line clues (c, k) = [] := by
  rw [List.eq_nil_iff_forall_not_mem]
  intro nd hnd
  have := children_cursor_bounds hnd
  omega

theorem weightSum_dupPushes_children_lt (line : List Int) (clues : List Nat)
    (nd : Nat × Nat) :
    weightSum line (dupPushes (children line clues nd)) < nodeWeight line nd := by
  obtain ⟨c, k⟩ := nd
  by_cases hc : lengthS line ≤ c
  · rw [children_eq_nil_of_ge hc, dupPushes_nil]
    exact Nat.lt_of_lt_of_le Nat.zero_lt_one (nodeWeight_pos line (c, k))
  · push_neg at hc
    set M := lengthS line with hM
    set B := M * M + 1 with hB
    have hlen : (dupPushes (children line clues (c, k))).length ≤ M * M := by
      have h1 := dupPushes_length (children line clues (c, k))
      have h2 := @children_length line clues c k
      nlinarith
    have hbound : ∀ x ∈ dupPushes (children line clues (c, k)),
        nodeWeight line x ≤ B ^ (M - c - 1) := by
      intro x hx
      have hmem := dupPushes_subset _ hx
      have hcur := children_cursor_bounds hmem
      unfold nodeWeight
      apply Nat.pow_le_pow_right (by omega)
      omega
    have hsum := sum_le_length_mul _ (nodeWeight line) (B ^ (M - c - 1)) hbound
    unfold weightSum nodeWeight
    calc ((dupPushes (children line clues (c, k))).map (nodeWeight line)).sum
        ≤ (dupPushes (children line clues (c, k))).length * B ^ (M - c - 1) := hsum
      _ ≤ (M * M) * B ^ (M - c - 1) := by
          apply Nat.mul_le_mul_right
          exact hlen
      _ < B * B ^ (M - c - 1) := by
          have hpow : 0 < B ^ (M - c - 1) := Nat.pos_pow_of_pos _ (by omega)
          have hBlt : M * M < B := by omega
          exact Nat.mul_lt_mul_of_lt_of_le hBlt (le_refl _) hpow
      _ = B ^ (M - c) := by
          rw [← pow_succ']
          congr 1
          omega

/-! ### The iterative drivers compute `nodesResult` -/

theorem loopOut_eq (line : List Int) (clues : List Nat) :
    ∀ (fuel : Nat) (stack : List (Nat × Nat)),
      weightSum line stack < fuel →
      hasSolutionLoopOut line clues fuel stack =
        some (nodesResult line clues stack) := by
  intro fuel
  induction fuel with
  | zero => intro stack h; omega
  | succ fuel ih =>
    intro stack h
    match stack with
    | [] => rfl
    | nd :: rest =>
      rw [hasSolutionLoopOut]
      by_cases h1 : reject line clues nd
      · rw [if_pos h1, nodesResult, searchNode_of_reject h1]
      · rw [if_neg h1]
        by_cases h2 : accept line clues nd
        · rw [if_pos h2, nodesResult, searchNode_of_accept h1 h2]
        · rw [if_neg h2]
          have hwlt := weightSum_dupPushes_children_lt line clues nd
          have hw : weightSum line (dupPushes (children line clues nd) ++ rest) <
              weightSum line (nd :: rest) := by
            rw [weightSum_append, weightSum_cons]
            omega
          rw [ih _ (by rw [weightSum_append]; rw [weightSum_cons] at h
                       have := weightSum_dupPushes_children_lt line clues nd
                       omega)]
          congr 1
          rw [nodesResult_append, nodesResult_dupPushes]
          rw [nodesResult_eq_firstSR, ← searchNode_of_children h1 h2]
          rw [nodesResult]

theorem loop_eq_out (line : List Int) (clues : List Nat) :
    ∀ (fuel : Nat) (stack : List (Nat × Nat)),
      hasSolutionLoop line clues fuel stack =
        (hasSolutionLoopOut line clues fuel stack).map srBool := by
  intro fuel
  induction fuel with
  | zero => intro stack; rfl
  | succ fuel ih =>
    intro stack
    match stack with
    | [] => rfl
    | nd :: rest =>
      rw [hasSolutionLoop, hasSolutionLoopOut]
      by_cases h1 : reject line clues nd
      · rw [if_pos h1, if_pos h1]; rfl
      · rw [if_neg h1, if_neg h1]
        by_cases h2 : accept line clues nd
        · rw [if_pos h2, if_pos h2]; rfl
        · rw [if_neg h2, if_neg h2]
          exact ih _

theorem weightSum_root (line : List Int) :
    weightSum line [(0, 0)] < searchFuel line := by
  unfold weightSum nodeWeight searchFuel
  simp

theorem hasSolution_eq_srBool (line : List Int) (clues : List Nat) :
    has_solution line clues = srBool (searchNode line clues (0, 0)) := by
  unfold has_solution
  rw [loop_eq_out, loopOut_eq line clues _ _ (weightSum_root line)]
  rw [nodesResult]
  match h : searchNode line clues (0, 0) with
  | .found => rfl
  | .aborted => rfl
  | .exhausted => rfl

theorem loopOut_root_eq (line : List Int) (clues : List Nat) :
    hasSolutionLoopOut line clues (searchFuel line) [(0, 0)] =
      some (searchNode line clues (0, 0)) := by
  rw [loopOut_eq line clues _ _ (weightSum_root line), nodesResult]
  match h : searchNode line clues (0, 0) with
  | .found => rfl
  | .aborted => rfl
  | .exhausted => rfl

end LineSolver

namespace LineSolver

/-! ### The pruning-only driver computes `searchNodeP` -/

theorem dupPushes_superset {α : Type} (l : List α) : l ⊆ dupPushes l := by
  match l with
  | [] => rw [dupPushes_nil]; exact fun a ha => ha
  | x :: xs =>
    rw [dupPushes_cons]
    exact fun a ha => List.mem_append_left _ ha

theorem any_dupPushes {α : Type} (l : List α) (f : α → Bool) :
    (dupPushes l).any f = l.any f := by
  rcases h : l.any f with hfalse | htrue
  · rw [List.any_eq_false] at h ⊢
    exact fun a ha => h a (dupPushes_subset _ ha)
  · rw [List.any_eq_true] at h ⊢
    obtain ⟨a, ha, hfa⟩ := h
    exact ⟨a, dupPushes_superset _ ha, hfa⟩

theorem searchNodeP_of_reject {line : List Int} {clues : List Nat}
    {nd : Nat × Nat} (h : reject line clues nd = true) :
    searchNodeP line clues nd = false := by
  rw [searchNodeP_unfold, if_pos h]

theorem loopPruned_eq (line : List Int) (clues : List Nat) :
    ∀ (fuel : Nat) (stack : List (Nat × Nat)),
      weightSum line stack < fuel →
      hasSolutionLoopPruned line clues fuel stack =
        some (stack.any (searchNodeP line clues)) := by
  intro fuel
  induction fuel with
  | zero => intro stack h; omega
  | succ fuel ih =>
    intro stack h
    match stack with
    | [] => rfl
    | nd :: rest =>
      rw [hasSolutionLoopPruned, List.any_cons]
      by_cases h1 : reject line clues nd
      · rw [if_pos h1, searchNodeP_of_reject h1, Bool.false_or]
        apply ih
        rw [weightSum_cons] at h
        have := nodeWeight_pos line nd
        omega
      · rw [if_neg h1]
        by_cases h2 : accept line clues nd
        · rw [if_pos h2]
          rw [searchNodeP_unfold, if_neg h1, if_pos h2, Bool.true_or]
        · rw [if_neg h2]
          rw [ih _ (by rw [weightSum_append]; rw [weightSum_cons] at h
                       have := weightSum_dupPushes_children_lt line clues nd
                       omega)]
          rw [List.any_append, any_dupPushes]
          rw [searchNodeP_unfold, if_neg h1, if_neg h2]

theorem hasSolutionPruned_eq (line : List Int) (clues : List Nat) :
    has_solution_pruned line clues = searchNodeP line clues (0, 0) := by
  unfold has_solution_pruned
  rw [loopPruned_eq line clues _ _ (weightSum_root line)]
  simp

end LineSolver

namespace LineSolver

/-! ### Soundness: a found node yields a placement -/

theorem drop_eq_getD_cons {clues : List Nat} {k : Nat} (h : k < clues.length) :
    clues.drop k = clues.getD k 0 :: clues.drop (k + 1) := by
  rw [List.getD_eq_getElem _ _ h]
  exact List.drop_eq_getElem_cons h

theorem searchNode_found_sat (line : List Int) (clues : List Nat) :
    ∀ (n c k : Nat), lengthS line + 1 - c = n → k ≤ clues.length →
      searchNode line clues (c, k) = .found → SatP line c (clues.drop k) := by
  intro n
  induction n using Nat.strong_induction_on with
  | _ n ih =>
    intro c k hn hk hfound
    by_cases h1 : reject line clues (c, k) = true
    · rw [searchNode_of_reject h1] at hfound
      exact absurd hfound (by simp)
    by_cases h2 : accept line clues (c, k) = true
    · obtain ⟨hkl, hsh⟩ := accept_iff.mp h2
      rw [List.drop_eq_nil_of_le (le_of_eq hkl.symm)]
      intro j hj hs
      have := hsh j hs
      omega
    rw [searchNode_of_children h1 h2] at hfound
    obtain ⟨ch, hchmem, hchfound⟩ := firstSR_map_found hfound
    obtain ⟨hkne, p, rfl, hp0, hp1, hp2⟩ := children_sound hchmem
    have hklt : k < clues.length := lt_of_le_of_ne hk hkne
    have hcur := children_cursor_bounds hchmem
    simp only at hcur
    have htail : SatP line (p + 1) (clues.drop (k + 1)) := by
      refine ih (lengthS line + 1 - (p + 1)) (by omega) (p + 1) (k + 1) rfl
        (by omega) hchfound
    set sz := clues.getD k 0 with hsz
    have hszle : sz ≤ p := by omega
    have hpM : p ≤ lengthS line := by omega
    have hallow := (isAllowed_iff hszle hpM).mp hp2
    rw [drop_eq_getD_cons hklt]
    refine ⟨p - sz, by omega, by omega, ?_, ?_, ?_, ?_⟩
    · intro j hj1 hj2 hs
      rcases fscOf_spec line c with ⟨_, hnone⟩ | ⟨j0, heq, hs0, hc0, hmin⟩
      · exact hnone j hj1 hs
      · have hj0j := hmin j hj1 hs
        have hlc : (p : Int) ≤ fscOf line c + (sz : Int) := by
          have := hp1
          unfold lastCellOf at this
          omega
        rw [heq] at hlc
        have : p ≤ j0 + sz := by exact_mod_cast hlc
        omega
    · intro j hj1 hj2
      refine hallow.2 j (by omega) (by omega)
    · show ¬shaded line (p - sz + sz)
      have : p - sz + sz = p := by omega
      rw [this]
      exact hallow.1
    · have : p - sz + sz + 1 = p + 1 := by omega
      rw [this]
      exact htail

/-! ### Normalization: a satisfiable node has a satisfiable generated child -/

theorem sat_child {line : List Int} {clues : List Nat} {c k : Nat}
    (hk : k < clues.length) (hsat : SatP line c (clues.drop k)) :
    ∃ q, (q + 1, k + 1) ∈ children line clues (c, k) ∧
      SatP line (q + 1) (clues.drop (k + 1)) := by
  rw [drop_eq_getD_cons hk] at hsat
  set sz := clues.getD k 0 with hsz
  obtain ⟨s, hcs, hfit, hgap, hblk, hnots, htail⟩ := hsat
  set p := s + sz with hp
  have hszle : sz ≤ p := by omega
  have hpM : p ≤ lengthS line := by omega
  have hallow : isAllowed line sz p = true := by
    rw [isAllowed_iff hszle hpM]
    refine ⟨hnots, fun j hj1 hj2 => hblk j (by omega) (by omega)⟩
  have hp1 : (p : Int) ≤ lastCellOf line clues c k := by
    unfold lastCellOf
    refine le_min ?_ ?_
    · have h0 : p + 1 ≤ lengthS line := hfit
      omega
    · rcases fscOf_spec line c with ⟨heq, _⟩ | ⟨j0, heq, hs0, hc0, hmin⟩
      · rw [heq, ← hsz]
        have h0 : p + 1 ≤ lengthS line := hfit
        omega
      · rw [heq, ← hsz]
        have hj0s : s ≤ j0 := by
          by_contra hlt
          push_neg at hlt
          exact hgap j0 hc0 hlt hs0
        omega
  obtain ⟨q, hqmem, hqle, hqfree⟩ :=
    children_complete (by omega) (by omega) hp1 hallow
  refine ⟨q, hqmem, satP_weaken htail (by omega) ?_⟩
  intro j hj1 hj2 hs
  rcases Nat.lt_or_ge j p with hlt | hge
  · exact hqfree j hj1 hlt hs
  · have : j = p := by omega
    subst this
    exact hnots hs

/-! ### The main completeness and abort-correctness theorem -/

theorem searchNode_main (line : List Int) (clues : List Nat) :
    ∀ (n c k : Nat), lengthS line + 1 - c = n → c ≤ lengthS line →
      k ≤ clues.length →
      (SatP line c (clues.drop k) → searchNode line clues (c, k) = .found) ∧
      (searchNode line clues (c, k) = .aborted →
        ∀ c', c ≤ c' → ¬SatP line c' (clues.drop k)) := by
  intro n
  induction n using Nat.strong_induction_on with
  | _ n ih =>
    intro c k hn hc hk
    have hI : SatP line c (clues.drop k) → searchNode line clues (c, k) = .found := by
      intro hsat
      have hrej : ¬reject line clues (c, k) = true := by
        intro hr
        rw [reject_iff hk] at hr
        have hspace := satP_space hsat hc
        rw [List.length_drop] at hspace
        omega
      rcases Nat.eq_or_lt_of_le hk with hkeq | hklt
      · have hacc : accept line clues (c, k) = true := by
          rw [accept_iff]
          refine ⟨hkeq, fun j hs => ?_⟩
          rw [hkeq, List.drop_eq_nil_of_le (le_refl _)] at hsat
          by_contra hge
          exact hsat j (by omega) hs
        exact searchNode_of_accept hrej hacc
      · have hacc : ¬accept line clues (c, k) = true := by
          intro ha
          have := (accept_iff.mp ha).1
          omega
        rw [searchNode_of_children hrej hacc]
        obtain ⟨q0, hq0mem, hq0sat⟩ := sat_child hklt hsat
        obtain ⟨l1, ch, l2, hdec, hchP, hl1notP⟩ :=
          exists_first_decomp (l := children line clues (c, k))
            (P := fun nd => SatP line nd.1 (clues.drop (k + 1)))
            ⟨(q0 + 1, k + 1), hq0mem, hq0sat⟩
        have hchmem : ch ∈ children line clues (c, k) := by
          rw [hdec]; exact List.mem_append_right _ (by simp)
        have hchcur := children_cursor_bounds hchmem
        have hchfound : searchNode line clues ch = .found := by
          obtain ⟨hkne, p, hche, hp0, hp1, hp2⟩ := children_sound hchmem
          rw [hche] at hchP hchcur ⊢
          simp only at hchP hchcur
          exact (ih (lengthS line + 1 - (p + 1)) (by omega) (p + 1) (k + 1) rfl
            (by omega) (by omega)).1 hchP
        have hl1exh : ∀ y ∈ l1, searchNode line clues y = .exhausted := by
          intro y hy
          have hymem : y ∈ children line clues (c, k) := by
            rw [hdec]; exact List.mem_append_left _ hy
          have hycur := children_cursor_bounds hymem
          obtain ⟨hkne, py, hye, hyp0, hyp1, hyp2⟩ := children_sound hymem
          have hylt : y.1 < ch.1 := by
            have hpair := @children_sorted line clues c k
            rw [hdec] at hpair
            have := (List.pairwise_append.mp hpair).2.2 y hy ch (by simp)
            exact this
          match hsy : searchNode line clues y with
          | .exhausted => rfl
          | .found =>
            exfalso
            apply hl1notP y hy
            rw [hye] at hsy ⊢
            simp only
            exact searchNode_found_sat line clues (lengthS line + 1 - (py + 1))
              (py + 1) (k + 1) rfl (by omega) hsy
          | .aborted =>
            exfalso
            have hy1 : y.1 = py + 1 := by rw [hye]
            have hA := (ih (lengthS line + 1 - y.1) (by omega) y.1 (k + 1)
              rfl (by omega) (by omega)).2
            rw [show (y.1, k + 1) = y from by rw [hye]] at hA
            have := hA hsy ch.1 (by omega)
            exact this hchP
        rw [hdec]
        rw [firstSR_map_of_decomp hl1exh (by rw [hchfound]; simp)]
        exact hchfound
    refine ⟨hI, ?_⟩
    intro habort c' hcc' hsat'
    by_cases h1 : reject line clues (c, k) = true
    · rw [reject_iff hk] at h1
      rcases Nat.eq_or_lt_of_le hk with hkeq | hklt
      · rw [hkeq] at h1
        simp at h1
        omega
      · have hcM : c' ≤ lengthS line := by
          rw [drop_eq_getD_cons hklt] at hsat'
          obtain ⟨s, hcs, hfit, _⟩ := hsat'
          omega
        have hspace := satP_space hsat' hcM
        rw [List.length_drop] at hspace
        omega
    by_cases h2 : accept line clues (c, k) = true
    · rw [searchNode_of_accept h1 h2] at habort
      exact absurd habort (by simp)
    rw [searchNode_of_children h1 h2] at habort
    obtain ⟨l1, ch, l2, hdec, hchab, hl1exh⟩ := firstSR_map_aborted habort
    have hchmem : ch ∈ children line clues (c, k) := by
      rw [hdec]; exact List.mem_append_right _ (by simp)
    have hchcur := children_cursor_bounds hchmem
    obtain ⟨hkne, pi, hche, hpi0, hpi1, hpi2⟩ := children_sound hchmem
    have hklt : k < clues.length := lt_of_le_of_ne hk hkne
    rw [drop_eq_getD_cons hklt] at hsat'
    set sz := clues.getD k 0 with hsz
    obtain ⟨s, hcs, hfit, hgap', hblk', hnots', htail'⟩ := hsat'
    set p := s + sz with hp
    have hch1 : ch.1 = pi + 1 := by rw [hche]
    rcases Nat.lt_or_ge p pi with hplt | hpge
    · -- the placement ends strictly left of the child: full-scope satisfiable,
      -- contradicting part one
      have hfull : SatP line c (clues.drop k) := by
        rcases fscOf_spec line c with ⟨_, hnone⟩ | ⟨j0, heq, hs0, hc0, hmin⟩
        · rw [drop_eq_getD_cons hklt, ← hsz]
          refine ⟨s, by omega, hfit, fun j hj1 hj2 => hnone j hj1, hblk', hnots', htail'⟩
        · have hcj0 : c' ≤ j0 := by
            by_contra hgt
            push_neg at hgt
            have hsj0 : j0 + 1 ≤ s := by omega
            have hlc : (pi : Int) ≤ fscOf line c + (sz : Int) := by
              have := hpi1
              unfold lastCellOf at this
              omega
            rw [heq] at hlc
            have : pi ≤ j0 + sz := by exact_mod_cast hlc
            omega
          rw [drop_eq_getD_cons hklt, ← hsz]
          refine ⟨s, by omega, hfit, fun j hj1 hj2 hs => ?_, hblk', hnots', htail'⟩
          rcases Nat.lt_or_ge j c' with hjc | hjc
          · have := hmin j hj1 hs
            omega
          · exact hgap' j hjc hj2 hs
      have := hI hfull
      rw [searchNode_of_children h1 h2, hdec] at this
      rw [firstSR_map_of_decomp hl1exh (by rw [hchab]; simp)] at this
      rw [hchab] at this
      exact absurd this (by simp)
    · -- the placement ends at or after the aborted child: use IH (A)
      have hA := (ih (lengthS line + 1 - ch.1) (by omega) ch.1 (k + 1)
        rfl (by omega) (by omega)).2
      rw [show (ch.1, k + 1) = ch from by rw [hche]] at hA
      exact hA hchab (p + 1) (by omega) htail'

end LineSolver

namespace LineSolver

/-! ### The pruning-only search decides the same predicate -/

theorem searchNodeP_true_sat (line : List Int) (clues : List Nat) :
    ∀ (n c k : Nat), lengthS line + 1 - c = n → k ≤ clues.length →
      searchNodeP line clues (c, k) = true → SatP line c (clues.drop k) := by
  intro n
  induction n using Nat.strong_induction_on with
  | _ n ih =>
    intro c k hn hk htrue
    rw [searchNodeP_unfold] at htrue
    by_cases h1 : reject line clues (c, k) = true
    · rw [if_pos h1] at htrue
      exact absurd htrue (by simp)
    rw [if_neg h1] at htrue
    by_cases h2 : accept line clues (c, k) = true
    · obtain ⟨hkl, hsh⟩ := accept_iff.mp h2
      rw [List.drop_eq_nil_of_le (le_of_eq hkl.symm)]
      intro j hj hs
      have := hsh j hs
      omega
    rw [if_neg h2] at htrue
    obtain ⟨ch, hchmem, hchtrue⟩ := List.any_eq_true.mp htrue
    obtain ⟨hkne, p, rfl, hp0, hp1, hp2⟩ := children_sound hchmem
    have hklt : k < clues.length := lt_of_le_of_ne hk hkne
    have hcur := children_cursor_bounds hchmem
    simp only at hcur
    have htail : SatP line (p + 1) (clues.drop (k + 1)) := by
      refine ih (lengthS line + 1 - (p + 1)) (by omega) (p + 1) (k + 1) rfl
        (by omega) hchtrue
    set sz := clues.getD k 0 with hsz
    have hszle : sz ≤ p := by omega
    have hpM : p ≤ lengthS line := by omega
    have hallow := (isAllowed_iff hszle hpM).mp hp2
    rw [drop_eq_getD_cons hklt]
    refine ⟨p - sz, by omega, by omega, ?_, ?_, ?_, ?_⟩
    · intro j hj1 hj2 hs
      rcases fscOf_spec line c with ⟨_, hnone⟩ | ⟨j0, heq, hs0, hc0, hmin⟩
      · exact hnone j hj1 hs
      · have hj0j := hmin j hj1 hs
        have hlc : (p : Int) ≤ fscOf line c + (sz : Int) := by
          have := hp1
          unfold lastCellOf at this
          omega
        rw [heq] at hlc
        have : p ≤ j0 + sz := by exact_mod_cast hlc
        omega
    · intro j hj1 hj2
      refine hallow.2 j (by omega) (by omega)
    · show ¬shaded line (p - sz + sz)
      have : p - sz + sz = p := by omega
      rw [this]
      exact hallow.1
    · have : p - sz + sz + 1 = p + 1 := by omega
      rw [this]
      exact htail

theorem searchNodeP_sat_true (line : List Int) (clues : List Nat) :
    ∀ (n c k : Nat), lengthS line + 1 - c = n → c ≤ lengthS line →
      k ≤ clues.length →
      SatP line c (clues.drop k) → searchNodeP line clues (c, k) = true := by
  intro n
  induction n using Nat.strong_induction_on with
  | _ n ih =>
    intro c k hn hc hk hsat
    have hrej : ¬reject line clues (c, k) = true := by
      intro hr
      rw [reject_iff hk] at hr
      have hspace := satP_space hsat hc
      rw [List.length_drop] at hspace
      omega
    rcases Nat.eq_or_lt_of_le hk with hkeq | hklt
    · have hacc : accept line clues (c, k) = true := by
        rw [accept_iff]
        refine ⟨hkeq, fun j hs => ?_⟩
        rw [hkeq, List.drop_eq_nil_of_le (le_refl _)] at hsat
        by_contra hge
        exact hsat j (by omega) hs
      rw [searchNodeP_unfold, if_neg hrej, if_pos hacc]
    · have hacc : ¬accept line clues (c, k) = true := by
        intro ha
        have := (accept_iff.mp ha).1
        omega
      rw [searchNodeP_unfold, if_neg hrej, if_neg hacc]
      obtain ⟨q0, hq0mem, hq0sat⟩ := sat_child hklt hsat
      rw [List.any_eq_true]
      refine ⟨(q0 + 1, k + 1), hq0mem, ?_⟩
      have hcur := children_cursor_bounds hq0mem
      simp only at hcur
      exact ih (lengthS line + 1 - (q0 + 1)) (by omega) (q0 + 1) (k + 1) rfl
        (by omega) (by omega) hq0sat

/-! ### Root-level characterizations -/

theorem has_solution_iff_satP (line : List Int) (clues : List Nat) :
    has_solution line clues = true ↔ SatP line 0 clues := by
  rw [hasSolution_eq_srBool]
  constructor
  · intro h
    have hfound : searchNode line clues (0, 0) = .found := by
      match hr : searchNode line clues (0, 0) with
      | .found => rfl
      | .exhausted => rw [hr] at h; exact absurd h (by simp [srBool])
      | .aborted => rw [hr] at h; exact absurd h (by simp [srBool])
    have := searchNode_found_sat line clues (lengthS line + 1) 0 0 (by omega)
      (by omega) hfound
    simpa using this
  · intro h
    have hfound := (searchNode_main line clues (lengthS line + 1) 0 0 (by omega)
      (by omega) (by omega)).1 (by simpa using h)
    rw [hfound]
    rfl

theorem has_solution_pruned_iff_satP (line : List Int) (clues : List Nat) :
    has_solution_pruned line clues = true ↔ SatP line 0 clues := by
  rw [hasSolutionPruned_eq]
  constructor
  · intro h
    have := searchNodeP_true_sat line clues (lengthS line + 1) 0 0 (by omega)
      (by omega) h
    simpa using this
  · intro h
    exact searchNodeP_sat_true line clues (lengthS line + 1) 0 0 (by omega)
      (by omega) (by omega) (by simpa using h)

theorem searchNode_aborted_unsat (line : List Int) (clues : List Nat)
    (h : searchNode line clues (0, 0) = .aborted) : ¬SatP line 0 clues := by
  intro hsat
  have := (searchNode_main line clues (lengthS line + 1) 0 0 (by omega)
    (by omega) (by omega)).2 h 0 (by omega)
  exact this (by simpa using hsat)

end LineSolver

namespace LineSolver

/-! ### From the recursive predicate to explicit placements and back -/

theorem satP_starts {line : List Int} : ∀ {cs : List Nat} {c : Nat},
    SatP line c cs → ∃ ss : List Nat,
      ss.length = cs.length ∧
      (∀ i, i < ss.length → c ≤ ss.getD i 0) ∧
      (∀ i, i + 1 < ss.length →
        ss.getD i 0 + cs.getD i 0 < ss.getD (i + 1) 0) ∧
      (∀ i, i < ss.length → ss.getD i 0 + cs.getD i 0 + 1 ≤ lengthS line) ∧
      (∀ j, c ≤ j → shaded line j →
        ∃ i, i < ss.length ∧ ss.getD i 0 ≤ j ∧ j < ss.getD i 0 + cs.getD i 0) ∧
      (∀ i, i < ss.length → ∀ j, ss.getD i 0 ≤ j →
        j < ss.getD i 0 + cs.getD i 0 → (lineS line).getD j 0 ≠ -1) := by
  intro cs
  induction cs with
  | nil =>
    intro c h
    refine ⟨[], by simp, by simp, by simp, by simp, ?_, by simp⟩
    intro j hj hs
    exact absurd hs (h j hj)
  | cons sz rest ih =>
    intro c h
    obtain ⟨s, hcs, hfit, hgap, hblk, hnots, htail⟩ := h
    obtain ⟨ss', hl, hge, hch, hfits, hcov, hemp⟩ := ih htail
    refine ⟨s :: ss', by simpa using hl, ?_, ?_, ?_, ?_, ?_⟩
    · intro i hi
      match i with
      | 0 => simpa using hcs
      | i + 1 =>
        simp only [List.getD_cons_succ]
        have := hge i (by simpa using hi)
        omega
    · intro i hi
      match i with
      | 0 =>
        simp only [List.getD_cons_succ, List.getD_cons_zero]
        have h0 : 0 < ss'.length := by simpa using hi
        have := hge 0 h0
        omega
      | i + 1 =>
        simp only [List.getD_cons_succ]
        exact hch i (by simpa using hi)
    · intro i hi
      match i with
      | 0 => simpa using hfit
      | i + 1 =>
        simp only [List.getD_cons_succ]
        exact hfits i (by simpa using hi)
    · intro j hj hs
      rcases Nat.lt_or_ge j s with hjs | hjs
      · exact absurd hs (hgap j hj hjs)
      rcases Nat.lt_or_ge j (s + sz) with hjb | hjb
      · exact ⟨0, by simp, by simpa using hjs, by simpa using hjb⟩
      rcases Nat.eq_or_lt_of_le hjb with hje | hjgt
      · exact absurd hs (hje ▸ hnots)
      · obtain ⟨i, hi, hil, hir⟩ := hcov j (by omega) hs
        exact ⟨i + 1, by simpa using hi, by simpa using hil, by simpa using hir⟩
    · intro i hi j hj1 hj2
      match i with
      | 0 =>
        simp only [List.getD_cons_zero] at hj1 hj2
        exact hblk j hj1 hj2
      | i + 1 =>
        simp only [List.getD_cons_succ] at hj1 hj2
        exact hemp i (by simpa using hi) j hj1 hj2

theorem getD_chain_mono {ss cs : List Nat}
    (hch : ∀ i, i + 1 < ss.length →
      ss.getD i 0 + cs.getD i 0 < ss.getD (i + 1) 0) :
    ∀ i j, i ≤ j → j < ss.length → ss.getD i 0 ≤ ss.getD j 0 := by
  intro i j hij hj
  induction j with
  | zero =>
    have : i = 0 := by omega
    subst this
    exact le_refl _
  | succ j ihj =>
    rcases Nat.eq_or_lt_of_le hij with rfl | hlt
    · exact le_refl _
    · have h1 := ihj (by omega) (by omega)
      have h2 := hch j (by omega)
      omega

theorem starts_satP {line : List Int} : ∀ (cs ss : List Nat) (c : Nat),
    ss.length = cs.length →
    (∀ i, i < ss.length → c ≤ ss.getD i 0) →
    (∀ i, i + 1 < ss.length →
      ss.getD i 0 + cs.getD i 0 < ss.getD (i + 1) 0) →
    (∀ i, i < ss.length → ss.getD i 0 + cs.getD i 0 + 1 ≤ lengthS line) →
    (∀ j, c ≤ j → shaded line j →
      ∃ i, i < ss.length ∧ ss.getD i 0 ≤ j ∧ j < ss.getD i 0 + cs.getD i 0) →
    (∀ i, i < ss.length → ∀ j, ss.getD i 0 ≤ j →
      j < ss.getD i 0 + cs.getD i 0 → (lineS line).getD j 0 ≠ -1) →
    SatP line c cs := by
  intro cs
  induction cs with
  | nil =>
    intro ss c hl _ _ _ hcov _
    intro j hj hs
    obtain ⟨i, hi, _⟩ := hcov j hj hs
    rw [hl] at hi
    simp at hi
  | cons sz rest ih =>
    intro ss c hl hge hch hfits hcov hemp
    match ss with
    | s :: ss' =>
    have hl' : ss'.length = rest.length := by simpa using hl
    have hlow : ∀ i, i < ss'.length → s + sz + 1 ≤ ss'.getD i 0 := by
      intro i hi
      have h0 : (s :: ss').getD 1 0 ≤ (s :: ss').getD (i + 1) 0 :=
        getD_chain_mono hch 1 (i + 1) (by omega) (by simpa using hi)
      have h1 := hch 0 (by simp only [List.length_cons] at hi ⊢; omega)
      simp only [List.getD_cons_succ, List.getD_cons_zero] at h0 h1 ⊢
      omega
    refine ⟨s, hge 0 (by simp), by simpa using hfits 0 (by simp), ?_, ?_, ?_, ?_⟩
    · intro j hj1 hj2 hs
      obtain ⟨i, hi, hil, hir⟩ := hcov j hj1 hs
      match i with
      | 0 =>
        simp only [List.getD_cons_zero] at hil
        omega
      | i + 1 =>
        simp only [List.getD_cons_succ] at hil
        have := hlow i (by simpa using hi)
        omega
    · intro j hj1 hj2
      have := hemp 0 (by simp) j (by simpa using hj1) (by simpa using hj2)
      exact this
    · intro hs
      obtain ⟨i, hi, hil, hir⟩ := hcov (s + sz) (by
        have := hge 0 (by simp)
        simp only [List.getD_cons_zero] at this
        omega) hs
      match i with
      | 0 =>
        simp only [List.getD_cons_zero] at hir
        omega
      | i + 1 =>
        simp only [List.getD_cons_succ] at hil
        have := hlow i (by simpa using hi)
        omega
    · refine ih ss' (s + sz + 1) hl' hlow ?_ ?_ ?_ ?_
      · intro i hi
        have := hch (i + 1) (by simpa using hi)
        simpa using this
      · intro i hi
        have := hfits (i + 1) (by simpa using hi)
        simpa using this
      · intro j hj hs
        obtain ⟨i, hi, hil, hir⟩ := hcov j (by
          have := hge 0 (by simp)
          simp only [List.getD_cons_zero] at this
          omega) hs
        match i with
        | 0 =>
          simp only [List.getD_cons_zero] at hir
          omega
        | i + 1 =>
          exact ⟨i, by simpa using hi, by simpa using hil, by simpa using hir⟩
      · intro i hi j hj1 hj2
        have := hemp (i + 1) (by simpa using hi) j (by simpa using hj1)
          (by simpa using hj2)
        exact this

theorem satP_iff_arrangement (line : List Int) (clues : List Nat) :
    SatP line 0 clues ↔ ∃ starts, Arrangement line clues starts := by
  constructor
  · intro h
    obtain ⟨ss, hl, _, hch, hfits, hcov, hemp⟩ := satP_starts h
    refine ⟨ss, hl, hch, ?_, ?_, ?_⟩
    · intro j hj
      have := hfits j hj
      rw [lengthS_eq] at this
      omega
    · intro p hp hget
      obtain ⟨i, hi, hil, hir⟩ := hcov p (by omega) (shaded_iff.mpr ⟨hp, hget⟩)
      exact ⟨i, hi, hil, hir⟩
    · intro p hp hget i hi ⟨hil, hir⟩
      have := hemp i hi p hil hir
      rw [lineS_getD_lt hp] at this
      exact this hget
  · rintro ⟨ss, hl, hch, hfits, hcov, hemp⟩
    refine starts_satP clues ss 0 hl (by simp) hch ?_ ?_ ?_
    · intro i hi
      have := hfits i hi
      rw [lengthS_eq]
      omega
    · intro j _ hs
      rw [shaded_iff] at hs
      exact hcov j hs.1 hs.2
    · intro i hi j hj1 hj2 hget
      have hjlt : j < line.length := by
        have := hfits i hi
        omega
      rw [lineS_getD_lt hjlt] at hget
      exact hemp j hjlt hget i hi ⟨hj1, hj2⟩

end LineSolver

namespace LineSolver

/-! ### Claim theorems about the line solver -/

/-- C1: for every line of cell states (`-1`/`0`/`1`) and every clue sequence
of positive integers, `has_solution` returns `true` iff there is a placement
of the clue blocks, in clue order, left to right, with at least one
non-filled cell between consecutive blocks, covering every `Filled` cell and
no `Empty` cell. -/
theorem C1_has_solution_iff_arrangement (line : List Int) (clues : List Nat)
    (hline : ∀ x ∈ line, x = -1 ∨ x = 0 ∨ x = 1)
    (hclues : ∀ cl ∈ clues, 0 < cl) :
    has_solution line clues = true ↔ ∃ starts, Arrangement line clues starts := by
  rw [has_solution_iff_satP, satP_iff_arrangement]

theorem C1_witness :
    (∀ x ∈ [(0 : Int), 1, 0], x = -1 ∨ x = 0 ∨ x = 1) ∧
    (∀ cl ∈ [2], 0 < cl) ∧
    (has_solution [0, 1, 0] [2] = true ↔
      ∃ starts, Arrangement [0, 1, 0] [2] starts) :=
  ⟨by decide, by decide,
    C1_has_solution_iff_arrangement [0, 1, 0] [2] (by decide) (by decide)⟩

/-- C2: whenever the iterative search pops a rejected node — which is
exactly when the instrumented driver ends `.aborted`, since the driver
returns at the first such pop — no arrangement of the entire line exists;
equivalently, the short-circuiting search computes the same boolean as the
variant that merely prunes the rejected branch and continues. -/
theorem C2_reject_short_circuit (line : List Int) (clues : List Nat) :
    (hasSolutionLoopOut line clues (searchFuel line) [(0, 0)] = some .aborted →
      ¬∃ starts, Arrangement line clues starts) ∧
    has_solution line clues = has_solution_pruned line clues := by
  constructor
  · intro h
    rw [loopOut_root_eq] at h
    rw [← satP_iff_arrangement]
    exact searchNode_aborted_unsat line clues (Option.some.inj h)
  · have h1 := has_solution_iff_satP line clues
    have h2 := has_solution_pruned_iff_satP line clues
    cases hb : has_solution line clues with
    | true => exact (h2.mpr (h1.mp hb)).symm
    | false =>
      cases hp : has_solution_pruned line clues with
      | false => rfl
      | true =>
        have := h1.mpr (h2.mp hp)
        rw [hb] at this
        exact absurd this (by simp)

theorem C2_witness :
    (hasSolutionLoopOut [0, 0, 0] [2, 2] (searchFuel [0, 0, 0]) [(0, 0)] =
      some .aborted) ∧
    ¬∃ starts, Arrangement [0, 0, 0] [2, 2] starts :=
  ⟨by decide, (C2_reject_short_circuit [0, 0, 0] [2, 2]).1 (by decide)⟩

theorem not_shaded_replicate (n j : Nat) :
    ¬shaded (List.replicate n (0 : Int)) j := by
  rw [shaded_iff]
  rintro ⟨hj, hget⟩
  rw [List.getD_eq_getElem _ _ hj, List.getElem_replicate] at hget
  norm_num at hget

theorem replicate_satP (n : Nat) : ∀ (cs : List Nat) (c : Nat),
    c + cs.sum + cs.length ≤ n + 1 → SatP (List.replicate n (0 : Int)) c cs := by
  intro cs
  induction cs with
  | nil =>
    intro c _ j hj
    exact not_shaded_replicate n j
  | cons sz rest ih =>
    intro c hle
    simp only [List.sum_cons, List.length_cons] at hle
    refine ⟨c, le_refl _, ?_, ?_, ?_, not_shaded_replicate n _, ?_⟩
    · rw [lengthS_eq, List.length_replicate]
      omega
    · intro j hj1 hj2
      exact ((by omega : False)).elim
    · intro j hj1 hj2
      have hjn : j < n := by omega
      rw [lineS_getD_lt (by simpa using hjn)]
      rw [List.getD_eq_getElem _ _ (by simpa using hjn), List.getElem_replicate]
      norm_num
    · exact ih (c + sz + 1) (by omega)

/-- C3: an all-`Unknown` line admits a solution iff the clue lengths plus
the mandatory separating gaps fit in the line; in particular a length-3 line
with clues `[2, 2]` has no solution. -/
theorem C3_all_unknown (n : Nat) (clues : List Nat)
    (hpos : ∀ cl ∈ clues, 0 < cl) :
    (has_solution (List.replicate n 0) clues = true ↔
      clues.sum + (clues.length - 1) ≤ n) ∧
    has_solution (List.replicate 3 0) [2, 2] = false := by
  constructor
  · rw [has_solution_iff_satP]
    constructor
    · intro h
      have hsp := satP_space h (by omega)
      rw [lengthS_eq, List.length_replicate] at hsp
      rcases clues with _ | ⟨cl, rest⟩
      · simp
      · simp only [List.sum_cons, List.length_cons] at hsp ⊢
        simp only [Nat.add_sub_cancel]
        omega
    · intro h
      refine replicate_satP n clues 0 ?_
      match clues with
      | [] => simpa using h
      | cl :: rest =>
        simp only [List.sum_cons, List.length_cons] at h ⊢
        simp only [List.length_cons, Nat.add_sub_cancel] at h
        omega
  · decide

theorem C3_witness :
    (∀ cl ∈ [3], 0 < cl) ∧
    ((has_solution (List.replicate 5 0) [3] = true ↔
      [3].sum + ([3].length - 1) ≤ 5) ∧
     has_solution (List.replicate 3 0) [2, 2] = false) :=
  ⟨by decide, C3_all_unknown 5 [3] (by decide)⟩

/-- C9: with an empty clue sequence, `has_solution` returns `true` iff the
line contains no filled cell; the root node is accepting exactly in that
case, and it has no children. -/
theorem C9_empty_clues (line : List Int) :
    (has_solution line [] = true ↔ ∀ x ∈ line, x ≠ 1) ∧
    (accept line [] (0, 0) = true ↔ ∀ x ∈ line, x ≠ 1) ∧
    children line [] (0, 0) = [] := by
  refine ⟨?_, ?_, ?_⟩
  · rw [has_solution_iff_satP]
    show (∀ j, 0 ≤ j → ¬shaded line j) ↔ _
    rw [← no_shaded_iff]
    constructor
    · intro h j
      exact h j (by omega)
    · intro h j _
      exact h j
  · rw [accept_iff, ← no_shaded_iff]
    constructor
    · rintro ⟨_, h⟩ j hs
      have := h j hs
      omega
    · intro h
      exact ⟨rfl, fun j hs => absurd hs (h j)⟩
  · exact children_eq_nil

end LineSolver

namespace Hanjie
open LineSolver

/-! ### Deductions: soundness and sortedness -/

theorem deduceFrom_mem (line : List Int) (clues : List Nat) :
    ∀ (m i0 : Nat), ∀ d ∈ deduceFrom line clues m i0,
      line.getD d.1 0 = 0 ∧ i0 ≤ d.1 ∧ d.1 < i0 + m ∧
      ((d.2 = -1 ∧ check_consistency (line.set d.1 1) clues = false) ∨
       (d.2 = 1 ∧ check_consistency (line.set d.1 (-1)) clues = false)) := by
  intro m
  induction m with
  | zero =>
    intro i0 d hd
    rw [deduceFrom] at hd
    simp at hd
  | succ m ih =>
    intro i0 d hd
    rw [deduceFrom] at hd
    rcases List.mem_append.mp hd with hblk | hrest
    · by_cases hz : line.getD i0 0 = 0
      · rw [if_pos hz] at hblk
        rcases List.mem_append.mp hblk with hleft | hright
        · by_cases hc : check_consistency (line.set i0 1) clues = true
          · rw [if_pos hc] at hleft; simp at hleft
          · rw [if_neg hc] at hleft
            simp only [List.mem_singleton] at hleft
            subst hleft
            exact ⟨hz, le_refl _, by omega,
              Or.inl ⟨rfl, by simpa using hc⟩⟩
        · by_cases hc : check_consistency (line.set i0 (-1)) clues = true
          · rw [if_pos hc] at hright; simp at hright
          · rw [if_neg hc] at hright
            simp only [List.mem_singleton] at hright
            subst hright
            exact ⟨hz, le_refl _, by omega,
              Or.inr ⟨rfl, by simpa using hc⟩⟩
      · rw [if_neg hz] at hblk; simp at hblk
    · obtain ⟨h1, h2, h3, h4⟩ := ih (i0 + 1) d hrest
      exact ⟨h1, by omega, by omega, h4⟩

/-- C4: every deduction returned by `_make_deductions` is logically forced:
setting the cell to the opposite of the deduced value makes the line
unsolvable. -/
theorem C4_deductions_sound (line : List Int) (clues : List Nat)
    (ds : List (Nat × Int)) (hds : make_deductions line clues = some ds) :
    ∀ d ∈ ds, has_solution (line.set d.1 (-d.2)) clues = false := by
  intro d hd
  have hds' : ds = deduceFrom line clues line.length 0 := by
    unfold make_deductions at hds
    by_cases hc : check_consistency line clues = true
    · rw [if_pos hc] at hds
      exact (Option.some.inj hds).symm
    · rw [if_neg hc] at hds
      exact absurd hds (by simp)
  subst hds'
  obtain ⟨_, _, _, hor⟩ := deduceFrom_mem line clues line.length 0 d hd
  rcases hor with ⟨hv, hfail⟩ | ⟨hv, hfail⟩
  · rw [hv]
    norm_num
    exact hfail
  · rw [hv]
    norm_num
    exact hfail

theorem C4_witness :
    make_deductions [0] [] = some [(0, -1)] ∧
    ∀ d ∈ [((0 : Nat), (-1 : Int))],
      has_solution ([0].set d.1 (-d.2)) [] = false := by
  refine ⟨by decide, C4_deductions_sound [0] [] [(0, -1)] (by decide)⟩

end Hanjie

namespace LineSolver

/-! ### Modifying one undetermined cell -/

theorem lengthS_set (line : List Int) (i : Nat) (v : Int) :
    lengthS (line.set i v) = lengthS line := by
  simp [lengthS, lineS]

theorem lineS_set_getD {line : List Int} {i : Nat} (hi : i < line.length)
    (v : Int) (j : Nat) :
    (lineS (line.set i v)).getD j 0 =
      if j = i then v else (lineS line).getD j 0 := by
  rcases Nat.lt_or_ge j line.length with hj | hj
  · rw [lineS_getD_lt (by simpa using hj), lineS_getD_lt hj]
    rw [List.getD_eq_getElem _ _ (by simpa using hj), List.getD_eq_getElem _ _ hj]
    rw [List.getElem_set]
    by_cases he : j = i
    · rw [if_pos he, if_pos (he ▸ rfl)]
    · rw [if_neg he, if_neg (fun h => he h.symm)]
  · have hne : j ≠ i := by omega
    rw [if_neg hne]
    rcases Nat.eq_or_lt_of_le hj with he | hlt
    · rw [← he]
      have h1 := lineS_getD_sentinel (line.set i v)
      rw [List.length_set] at h1
      rw [h1, lineS_getD_sentinel]
    · rw [lineS_getD_ge (by rw [lengthS_set]; rw [lengthS_eq]; omega),
        lineS_getD_ge (by rw [lengthS_eq]; omega)]

theorem satP_set_or {line : List Int} {i : Nat} (hi : i < line.length)
    (h0 : line.getD i 0 = 0) :
    ∀ {cs : List Nat} {c : Nat}, SatP line c cs →
      SatP (line.set i 1) c cs ∨ SatP (line.set i (-1)) c cs := by
  intro cs
  induction cs with
  | nil =>
    intro c h
    right
    intro j hj hs
    rw [shaded, lineS_set_getD hi] at hs
    by_cases he : j = i
    · rw [if_pos he] at hs
      exact absurd hs (by norm_num)
    · rw [if_neg he] at hs
      exact h j hj hs
  | cons sz rest ih =>
    intro c h
    obtain ⟨s, hcs, hfit, hgap, hblk, hnots, htail⟩ := h
    have hlen : lengthS (line.set i 1) = lengthS line := lengthS_set ..
    have hlen' : lengthS (line.set i (-1)) = lengthS line := lengthS_set ..
    rcases Nat.lt_or_ge i s with his | his
    · -- the cell lies strictly before the block: keep it empty
      right
      refine ⟨s, hcs, by omega, ?_, ?_, ?_, ?_⟩
      · intro j hj1 hj2 hs
        rw [shaded, lineS_set_getD hi] at hs
        by_cases he : j = i
        · rw [if_pos he] at hs
          exact absurd hs (by norm_num)
        · rw [if_neg he] at hs
          exact hgap j hj1 hj2 hs
      · intro j hj1 hj2
        rw [lineS_set_getD hi, if_neg (by omega)]
        exact hblk j hj1 hj2
      · rw [shaded, lineS_set_getD hi, if_neg (by omega)]
        exact hnots
      · rw [@satP_congr _ line hlen' _ _ (fun j hj =>
          by rw [lineS_set_getD hi, if_neg (by omega)])]
        exact htail
    rcases Nat.lt_or_ge i (s + sz) with hib | hib
    · -- the cell lies inside the block: fill it
      left
      refine ⟨s, hcs, by omega, ?_, ?_, ?_, ?_⟩
      · intro j hj1 hj2 hs
        rw [shaded, lineS_set_getD hi, if_neg (by omega)] at hs
        exact hgap j hj1 hj2 hs
      · intro j hj1 hj2
        rw [lineS_set_getD hi]
        by_cases he : j = i
        · rw [if_pos he]
          norm_num
        · rw [if_neg he]
          exact hblk j hj1 hj2
      · rw [shaded, lineS_set_getD hi, if_neg (by omega)]
        exact hnots
      · rw [@satP_congr _ line hlen _ _ (fun j hj =>
          by rw [lineS_set_getD hi, if_neg (by omega)])]
        exact htail
    rcases Nat.eq_or_lt_of_le hib with hie | hia
    · -- the cell is the gap cell right after the block: keep it empty
      right
      refine ⟨s, hcs, by omega, ?_, ?_, ?_, ?_⟩
      · intro j hj1 hj2 hs
        rw [shaded, lineS_set_getD hi, if_neg (by omega)] at hs
        exact hgap j hj1 hj2 hs
      · intro j hj1 hj2
        rw [lineS_set_getD hi, if_neg (by omega)]
        exact hblk j hj1 hj2
      · rw [shaded, lineS_set_getD hi, if_pos hie]
        norm_num
      · rw [@satP_congr _ line hlen' _ _ (fun j hj =>
          by rw [lineS_set_getD hi, if_neg (by omega)])]
        exact htail
    · -- the cell lies beyond this block: recurse into the tail
      rcases ih htail with hleft | hright
      · left
        refine ⟨s, hcs, by omega, ?_, ?_, ?_, hleft⟩
        · intro j hj1 hj2 hs
          rw [shaded, lineS_set_getD hi, if_neg (by omega)] at hs
          exact hgap j hj1 hj2 hs
        · intro j hj1 hj2
          rw [lineS_set_getD hi, if_neg (by omega)]
          exact hblk j hj1 hj2
        · rw [shaded, lineS_set_getD hi, if_neg (by omega)]
          exact hnots
      · right
        refine ⟨s, hcs, by omega, ?_, ?_, ?_, hright⟩
        · intro j hj1 hj2 hs
          rw [shaded, lineS_set_getD hi, if_neg (by omega)] at hs
          exact hgap j hj1 hj2 hs
        · intro j hj1 hj2
          rw [lineS_set_getD hi, if_neg (by omega)]
          exact hblk j hj1 hj2
        · rw [shaded, lineS_set_getD hi, if_neg (by omega)]
          exact hnots

end LineSolver

namespace Hanjie
open LineSolver

/-! ### Sortedness of the deduction list -/

theorem not_both_inconsistent {line : List Int} {clues : List Nat} {i : Nat}
    (hcons : check_consistency line clues = true) (hi : i < line.length)
    (h0 : line.getD i 0 = 0) :
    check_consistency (line.set i 1) clues = true ∨
    check_consistency (line.set i (-1)) clues = true := by
  unfold check_consistency at hcons ⊢
  rw [has_solution_iff_satP] at hcons
  rcases satP_set_or hi h0 hcons with h | h
  · left
    rw [has_solution_iff_satP]
    exact h
  · right
    rw [has_solution_iff_satP]
    exact h

theorem deduceFrom_pairwise (line : List Int) (clues : List Nat)
    (hcons : check_consistency line clues = true) :
    ∀ (m i0 : Nat), (deduceFrom line clues m i0).Pairwise
      (fun a b => a.1 < b.1) := by
  intro m
  induction m with
  | zero =>
    intro i0
    rw [deduceFrom]
    exact List.Pairwise.nil
  | succ m ih =>
    intro i0
    rw [deduceFrom]
    rw [List.pairwise_append]
    refine ⟨?_, ih (i0 + 1), ?_⟩
    · by_cases hz : line.getD i0 0 = 0
      · rw [if_pos hz]
        rcases Nat.lt_or_ge i0 line.length with hilt | hige
        · rcases not_both_inconsistent hcons hilt hz with hok | hok
          · rw [if_pos hok, List.nil_append]
            by_cases hok2 : check_consistency (line.set i0 (-1)) clues = true
            · rw [if_pos hok2]; exact List.Pairwise.nil
            · rw [if_neg hok2]; exact List.pairwise_singleton ..
          · rw [if_pos hok]
            by_cases hok1 : check_consistency (line.set i0 1) clues = true
            · rw [if_pos hok1, List.nil_append]; exact List.Pairwise.nil
            · rw [if_neg hok1, List.append_nil]; exact List.pairwise_singleton ..
        · have hset1 : line.set i0 1 = line := List.set_eq_of_length_le (by omega)
          have hset2 : line.set i0 (-1) = line := List.set_eq_of_length_le (by omega)
          rw [hset1, hset2, if_pos hcons, if_pos hcons]
          exact List.Pairwise.nil
      · rw [if_neg hz]
        exact List.Pairwise.nil
    · intro a ha b hb
      have hbmem := deduceFrom_mem line clues m (i0 + 1) b hb
      have halt : a.1 = i0 := by
        by_cases hz : line.getD i0 0 = 0
        · rw [if_pos hz] at ha
          rcases List.mem_append.mp ha with h1 | h1
          · by_cases hc : check_consistency (line.set i0 1) clues = true
            · rw [if_pos hc] at h1
              simp at h1
            · rw [if_neg hc, List.mem_singleton] at h1
              rw [h1]
          · by_cases hc : check_consistency (line.set i0 (-1)) clues = true
            · rw [if_pos hc] at h1
              simp at h1
            · rw [if_neg hc, List.mem_singleton] at h1
              rw [h1]
        · rw [if_neg hz] at ha
          simp at ha
      rw [halt]
      omega

end Hanjie

namespace Hanjie
open LineSolver

/-- C5: when the initial consistency check succeeds, the deduction list of
`_make_deductions` is strictly ascending in cell index — in particular it
never contains two deductions for the same index, because for an
undetermined cell of a consistent line at most one of the two hypotheses
can make the line inconsistent (`not_both_inconsistent`). -/
theorem C5_deductions_sorted (line : List Int) (clues : List Nat)
    (ds : List (Nat × Int)) (hds : make_deductions line clues = some ds) :
    ds.Pairwise (fun a b => a.1 < b.1) := by
  unfold make_deductions at hds
  by_cases hc : check_consistency line clues = true
  · rw [if_pos hc] at hds
    rw [← Option.some.inj hds]
    exact deduceFrom_pairwise line clues hc line.length 0
  · rw [if_neg hc] at hds
    exact absurd hds (by simp)

theorem C5_witness :
    make_deductions [0, 0] [] = some [(0, -1), (1, -1)] ∧
    List.Pairwise (fun (a b : Nat × Int) => a.1 < b.1) [(0, -1), (1, -1)] :=
  ⟨by decide, C5_deductions_sorted [0, 0] [] [(0, -1), (1, -1)] (by decide)⟩

end Hanjie

namespace Hanjie
open LineSolver

/-! ### List helpers for the grid -/

theorem getD_set_self {α : Type} : ∀ (l : List α) (i : Nat) (v d : α),
    i < l.length → (l.set i v).getD i d = v := by
  intro l
  induction l with
  | nil => intro i v d h; simp at h
  | cons a t ih =>
    intro i v d h
    match i with
    | 0 => rfl
    | i + 1 =>
      rw [List.set_cons_succ, List.getD_cons_succ]
      exact ih i v d (by simpa using h)

theorem getD_set_ne {α : Type} : ∀ (l : List α) (i j : Nat) (v d : α),
    j ≠ i → (l.set i v).getD j d = l.getD j d := by
  intro l
  induction l with
  | nil => intro i j v d h; rfl
  | cons a t ih =>
    intro i j v d h
    match i, j with
    | 0, 0 => exact absurd rfl h
    | 0, j + 1 => rfl
    | i + 1, 0 => rfl
    | i + 1, j + 1 =>
      rw [List.set_cons_succ, List.getD_cons_succ, List.getD_cons_succ]
      exact ih i j v d (by omega)

theorem countP_set_le : ∀ (l : List Int) (n : Nat) (v : Int), v ≠ 0 →
    (l.set n v).countP (fun x => x == 0) ≤ l.countP (fun x => x == 0) := by
  intro l
  induction l with
  | nil => intro n v hv; simp
  | cons a t ih =>
    intro n v hv
    match n with
    | 0 =>
      rw [List.set_cons_zero, List.countP_cons, List.countP_cons]
      have : (v == 0) = false := by simpa using hv
      rw [this]
      simp
    | n + 1 =>
      rw [List.set_cons_succ, List.countP_cons, List.countP_cons]
      have := ih n v hv
      omega

theorem countP_set_lt : ∀ (l : List Int) (n : Nat) (v : Int), v ≠ 0 →
    n < l.length → l.getD n 0 = 0 →
    (l.set n v).countP (fun x => x == 0) < l.countP (fun x => x == 0) := by
  intro l
  induction l with
  | nil => intro n v _ h; simp at h
  | cons a t ih =>
    intro n v hv hn h0
    match n with
    | 0 =>
      rw [List.set_cons_zero, List.countP_cons, List.countP_cons]
      rw [List.getD_cons_zero] at h0
      have h1 : (v == 0) = false := by simpa using hv
      have h2 : (a == 0) = true := by simpa using h0
      rw [h1, h2]
      simp
    | n + 1 =>
      rw [List.set_cons_succ, List.countP_cons, List.countP_cons]
      rw [List.getD_cons_succ] at h0
      have := ih n v hv (by simpa using hn) h0
      omega

theorem gridSum_set : ∀ (grid : List (List Int)) (i : Nat) (newRow : List Int),
    i < grid.length →
    (((grid.set i newRow).map (fun row => row.countP (fun x => x == 0))).sum +
      (grid.getD i []).countP (fun x => x == 0)) =
    ((grid.map (fun row => row.countP (fun x => x == 0))).sum +
      newRow.countP (fun x => x == 0)) := by
  intro grid
  induction grid with
  | nil => intro i newRow h; simp at h
  | cons r t ih =>
    intro i newRow h
    match i with
    | 0 => simp [List.set_cons_zero]; omega
    | i + 1 =>
      rw [List.set_cons_succ]
      simp only [List.map_cons, List.sum_cons, List.getD_cons_succ]
      have := ih i newRow (by simpa using h)
      omega

end Hanjie

namespace Hanjie
open LineSolver

/-! ### Applying row deductions to the grid -/

theorem rowFold_fields (index : Nat) : ∀ (deds : List (Nat × Int)) (st : HState),
    (deds.foldl (fun acc d => { acc with
        grid := acc.grid.set index ((acc.grid.getD index []).set d.1 d.2),
        cols_to_check := acc.cols_to_check.set d.1 true }) st).width = st.width ∧
    (deds.foldl (fun acc d => { acc with
        grid := acc.grid.set index ((acc.grid.getD index []).set d.1 d.2),
        cols_to_check := acc.cols_to_check.set d.1 true }) st).height = st.height ∧
    (deds.foldl (fun acc d => { acc with
        grid := acc.grid.set index ((acc.grid.getD index []).set d.1 d.2),
        cols_to_check := acc.cols_to_check.set d.1 true }) st).row_clues = st.row_clues ∧
    (deds.foldl (fun acc d => { acc with
        grid := acc.grid.set index ((acc.grid.getD index []).set d.1 d.2),
        cols_to_check := acc.cols_to_check.set d.1 true }) st).col_clues = st.col_clues ∧
    (deds.foldl (fun acc d => { acc with
        grid := acc.grid.set index ((acc.grid.getD index []).set d.1 d.2),
        cols_to_check := acc.cols_to_check.set d.1 true }) st).rows_to_check = st.rows_to_check ∧
    (deds.foldl (fun acc d => { acc with
        grid := acc.grid.set index ((acc.grid.getD index []).set d.1 d.2),
        cols_to_check := acc.cols_to_check.set d.1 true }) st).grid.length = st.grid.length ∧
    (deds.foldl (fun acc d => { acc with
        grid := acc.grid.set index ((acc.grid.getD index []).set d.1 d.2),
        cols_to_check := acc.cols_to_check.set d.1 true }) st).cols_to_check.length = st.cols_to_check.length ∧
    (∀ r, ((deds.foldl (fun acc d => { acc with
        grid := acc.grid.set index ((acc.grid.getD index []).set d.1 d.2),
        cols_to_check := acc.cols_to_check.set d.1 true }) st).grid.getD r []).length = (st.grid.getD r []).length) := by
  intro deds
  induction deds with
  | nil => intro st; exact ⟨rfl, rfl, rfl, rfl, rfl, rfl, rfl, fun r => rfl⟩
  | cons d rest ih =>
    intro st
    rw [List.foldl_cons]
    obtain ⟨h1, h2, h3, h4, h5, h6, h7, h8⟩ := ih _
    refine ⟨h1, h2, h3, h4, h5, ?_, ?_, ?_⟩
    · rw [h6]
      simp
    · rw [h7]
      simp
    · intro r
      rw [h8 r]
      by_cases hr : r = index
      · subst hr
        by_cases hlt : r < st.grid.length
        · rw [getD_set_self _ _ _ _ hlt]
          simp
        · rw [List.set_eq_of_length_le (by omega)]
      · rw [getD_set_ne _ _ _ _ _ hr]

theorem rowFold_cell (index : Nat) : ∀ (deds : List (Nat × Int)) (st : HState)
    (r c : Nat), (∀ d ∈ deds, ¬(index = r ∧ d.1 = c)) →
    (((deds.foldl (fun acc d => { acc with
        grid := acc.grid.set index ((acc.grid.getD index []).set d.1 d.2),
        cols_to_check := acc.cols_to_check.set d.1 true }) st).grid.getD r []).getD c 0) =
      (st.grid.getD r []).getD c 0 := by
  intro deds
  induction deds with
  | nil => intro st r c _; rfl
  | cons d rest ih =>
    intro st r c hall
    rw [List.foldl_cons]
    rw [ih _ r c (fun d' hd' => hall d' (List.mem_cons_of_mem _ hd'))]
    by_cases hr : r = index
    · subst hr
      have hdc : d.1 ≠ c := fun h => hall d (by simp) ⟨rfl, h⟩
      by_cases hlt : r < st.grid.length
      · rw [getD_set_self _ _ _ _ hlt]
        rw [getD_set_ne _ _ _ _ _ (fun h => hdc h.symm)]
      · rw [List.set_eq_of_length_le (by omega)]
    · rw [getD_set_ne _ _ _ _ _ hr]

theorem rowStep_count_le (st : HState) (index : Nat) (d : Nat × Int)
    (hv : d.2 ≠ 0) :
    countUnknowns { st with
      grid := st.grid.set index ((st.grid.getD index []).set d.1 d.2),
      cols_to_check := st.cols_to_check.set d.1 true } ≤ countUnknowns st := by
  unfold countUnknowns
  simp only
  by_cases hlt : index < st.grid.length
  · have h := gridSum_set st.grid index ((st.grid.getD index []).set d.1 d.2) hlt
    have h2 := countP_set_le (st.grid.getD index []) d.1 d.2 hv
    omega
  · rw [List.set_eq_of_length_le (by omega)]

theorem rowStep_count_lt (st : HState) (index : Nat) (d : Nat × Int)
    (hv : d.2 ≠ 0) (hidx : index < st.grid.length)
    (hd : d.1 < (st.grid.getD index []).length)
    (h0 : (st.grid.getD index []).getD d.1 0 = 0) :
    countUnknowns { st with
      grid := st.grid.set index ((st.grid.getD index []).set d.1 d.2),
      cols_to_check := st.cols_to_check.set d.1 true } < countUnknowns st := by
  unfold countUnknowns
  simp only
  have h := gridSum_set st.grid index ((st.grid.getD index []).set d.1 d.2) hidx
  have h2 := countP_set_lt (st.grid.getD index []) d.1 d.2 hv hd h0
  omega

theorem rowFold_count_le (index : Nat) : ∀ (deds : List (Nat × Int)) (st : HState),
    (∀ d ∈ deds, d.2 ≠ 0) →
    countUnknowns (deds.foldl (fun acc d => { acc with
        grid := acc.grid.set index ((acc.grid.getD index []).set d.1 d.2),
        cols_to_check := acc.cols_to_check.set d.1 true }) st) ≤ countUnknowns st := by
  intro deds
  induction deds with
  | nil => intro st _; exact le_refl _
  | cons d rest ih =>
    intro st hall
    rw [List.foldl_cons]
    calc countUnknowns _ ≤ _ := ih _ (fun d' hd' => hall d' (List.mem_cons_of_mem _ hd'))
      _ ≤ countUnknowns st := rowStep_count_le st index d (hall d (by simp))

theorem rowFold_count_lt (index : Nat) (d : Nat × Int) (rest : List (Nat × Int))
    (st : HState) (hv : d.2 ≠ 0) (hall : ∀ d' ∈ rest, d'.2 ≠ 0)
    (hidx : index < st.grid.length)
    (hd : d.1 < (st.grid.getD index []).length)
    (h0 : (st.grid.getD index []).getD d.1 0 = 0) :
    countUnknowns ((d :: rest).foldl (fun acc d => { acc with
        grid := acc.grid.set index ((acc.grid.getD index []).set d.1 d.2),
        cols_to_check := acc.cols_to_check.set d.1 true }) st) < countUnknowns st := by
  rw [List.foldl_cons]
  calc countUnknowns _ ≤ _ := rowFold_count_le index rest _ hall
    _ < countUnknowns st := rowStep_count_lt st index d hv hidx hd h0

/-! ### Applying column deductions to the grid -/

theorem colFold_fields (index : Nat) : ∀ (deds : List (Nat × Int)) (st : HState),
    (deds.foldl (fun acc d => { acc with
        grid := acc.grid.set d.1 ((acc.grid.getD d.1 []).set index d.2),
        rows_to_check := acc.rows_to_check.set d.1 true }) st).width = st.width ∧
    (deds.foldl (fun acc d => { acc with
        grid := acc.grid.set d.1 ((acc.grid.getD d.1 []).set index d.2),
        rows_to_check := acc.rows_to_check.set d.1 true }) st).height = st.height ∧
    (deds.foldl (fun acc d => { acc with
        grid := acc.grid.set d.1 ((acc.grid.getD d.1 []).set index d.2),
        rows_to_check := acc.rows_to_check.set d.1 true }) st).row_clues = st.row_clues ∧
    (deds.foldl (fun acc d => { acc with
        grid := acc.grid.set d.1 ((acc.grid.getD d.1 []).set index d.2),
        rows_to_check := acc.rows_to_check.set d.1 true }) st).col_clues = st.col_clues ∧
    (deds.foldl (fun acc d => { acc with
        grid := acc.grid.set d.1 ((acc.grid.getD d.1 []).set index d.2),
        rows_to_check := acc.rows_to_check.set d.1 true }) st).cols_to_check = st.cols_to_check ∧
    (deds.foldl (fun acc d => { acc with
        grid := acc.grid.set d.1 ((acc.grid.getD d.1 []).set index d.2),
        rows_to_check := acc.rows_to_check.set d.1 true }) st).grid.length = st.grid.length ∧
    (deds.foldl (fun acc d => { acc with
        grid := acc.grid.set d.1 ((acc.grid.getD d.1 []).set index d.2),
        rows_to_check := acc.rows_to_check.set d.1 true }) st).rows_to_check.length = st.rows_to_check.length ∧
    (∀ r, ((deds.foldl (fun acc d => { acc with
        grid := acc.grid.set d.1 ((acc.grid.getD d.1 []).set index d.2),
        rows_to_check := acc.rows_to_check.set d.1 true }) st).grid.getD r []).length = (st.grid.getD r []).length) := by
  intro deds
  induction deds with
  | nil => intro st; exact ⟨rfl, rfl, rfl, rfl, rfl, rfl, rfl, fun r => rfl⟩
  | cons d rest ih =>
    intro st
    rw [List.foldl_cons]
    obtain ⟨h1, h2, h3, h4, h5, h6, h7, h8⟩ := ih _
    refine ⟨h1, h2, h3, h4, h5, ?_, ?_, ?_⟩
    · rw [h6]
      simp
    · rw [h7]
      simp
    · intro r
      rw [h8 r]
      by_cases hr : r = d.1
      · subst hr
        by_cases hlt : d.1 < st.grid.length
        · rw [getD_set_self _ _ _ _ hlt]
          simp
        · rw [List.set_eq_of_length_le (by omega)]
      · rw [getD_set_ne _ _ _ _ _ hr]

theorem colFold_cell (index : Nat) : ∀ (deds : List (Nat × Int)) (st : HState)
    (r c : Nat), (∀ d ∈ deds, ¬(d.1 = r ∧ index = c)) →
    (((deds.foldl (fun acc d => { acc with
        grid := acc.grid.set d.1 ((acc.grid.getD d.1 []).set index d.2),
        rows_to_check := acc.rows_to_check.set d.1 true }) st).grid.getD r []).getD c 0) =
      (st.grid.getD r []).getD c 0 := by
  intro deds
  induction deds with
  | nil => intro st r c _; rfl
  | cons d rest ih =>
    intro st r c hall
    rw [List.foldl_cons]
    rw [ih _ r c (fun d' hd' => hall d' (List.mem_cons_of_mem _ hd'))]
    by_cases hr : r = d.1
    · subst hr
      have hic : index ≠ c := fun h => hall d (by simp) ⟨rfl, h⟩
      by_cases hlt : d.1 < st.grid.length
      · rw [getD_set_self _ _ _ _ hlt]
        rw [getD_set_ne _ _ _ _ _ (fun h => hic h.symm)]
      · rw [List.set_eq_of_length_le (by omega)]
    · rw [getD_set_ne _ _ _ _ _ hr]

theorem colStep_count_le (st : HState) (index : Nat) (d : Nat × Int)
    (hv : d.2 ≠ 0) :
    countUnknowns { st with
      grid := st.grid.set d.1 ((st.grid.getD d.1 []).set index d.2),
      rows_to_check := st.rows_to_check.set d.1 true } ≤ countUnknowns st := by
  unfold countUnknowns
  simp only
  by_cases hlt : d.1 < st.grid.length
  · have h := gridSum_set st.grid d.1 ((st.grid.getD d.1 []).set index d.2) hlt
    have h2 := countP_set_le (st.grid.getD d.1 []) index d.2 hv
    omega
  · rw [List.set_eq_of_length_le (by omega)]

theorem colStep_count_lt (st : HState) (index : Nat) (d : Nat × Int)
    (hv : d.2 ≠ 0) (hidx : d.1 < st.grid.length)
    (hd : index < (st.grid.getD d.1 []).length)
    (h0 : (st.grid.getD d.1 []).getD index 0 = 0) :
    countUnknowns { st with
      grid := st.grid.set d.1 ((st.grid.getD d.1 []).set index d.2),
      rows_to_check := st.rows_to_check.set d.1 true } < countUnknowns st := by
  unfold countUnknowns
  simp only
  have h := gridSum_set st.grid d.1 ((st.grid.getD d.1 []).set index d.2) hidx
  have h2 := countP_set_lt (st.grid.getD d.1 []) index d.2 hv hd h0
  omega

theorem colFold_count_le (index : Nat) : ∀ (deds : List (Nat × Int)) (st : HState),
    (∀ d ∈ deds, d.2 ≠ 0) →
    countUnknowns (deds.foldl (fun acc d => { acc with
        grid := acc.grid.set d.1 ((acc.grid.getD d.1 []).set index d.2),
        rows_to_check := acc.rows_to_check.set d.1 true }) st) ≤ countUnknowns st := by
  intro deds
  induction deds with
  | nil => intro st _; exact le_refl _
  | cons d rest ih =>
    intro st hall
    rw [List.foldl_cons]
    calc countUnknowns _ ≤ _ := ih _ (fun d' hd' => hall d' (List.mem_cons_of_mem _ hd'))
      _ ≤ countUnknowns st := colStep_count_le st index d (hall d (by simp))

theorem colFold_count_lt (index : Nat) (d : Nat × Int) (rest : List (Nat × Int))
    (st : HState) (hv : d.2 ≠ 0) (hall : ∀ d' ∈ rest, d'.2 ≠ 0)
    (hidx : d.1 < st.grid.length)
    (hd : index < (st.grid.getD d.1 []).length)
    (h0 : (st.grid.getD d.1 []).getD index 0 = 0) :
    countUnknowns ((d :: rest).foldl (fun acc d => { acc with
        grid := acc.grid.set d.1 ((acc.grid.getD d.1 []).set index d.2),
        rows_to_check := acc.rows_to_check.set d.1 true }) st) < countUnknowns st := by
  rw [List.foldl_cons]
  calc countUnknowns _ ≤ _ := colFold_count_le index rest _ hall
    _ < countUnknowns st := colStep_count_lt st index d hv hidx hd h0


/-! ### Small list helpers -/

theorem getD_true_lt : ∀ (l : List Bool) (i : Nat), l.getD i false = true → i < l.length := by
  intro l
  induction l with
  | nil => intro i h; simp at h
  | cons a t ih =>
    intro i h
    match i with
    | 0 => simp
    | i + 1 =>
      rw [List.getD_cons_succ] at h
      have := ih i h
      simp
      omega

theorem getD_mem : ∀ (g : List (List Int)) (r : Nat), r < g.length → g.getD r [] ∈ g := by
  intro g
  induction g with
  | nil => intro r h; simp at h
  | cons a t ih =>
    intro r h
    match r with
    | 0 => exact List.mem_cons_self _ _
    | r + 1 =>
      rw [List.getD_cons_succ]
      exact List.mem_cons_of_mem _ (ih r (by simpa using h))

theorem mem_exists_getD : ∀ (g : List (List Int)) (row : List Int), row ∈ g →
    ∃ r, r < g.length ∧ g.getD r [] = row := by
  intro g
  induction g with
  | nil => intro row h; simp at h
  | cons a t ih =>
    intro row h
    rcases List.mem_cons.mp h with h | h
    · exact ⟨0, by simp, h.symm⟩
    · obtain ⟨r, hr, he⟩ := ih row h
      exact ⟨r + 1, by simp; omega, he⟩

theorem getD_map_range {α : Type} (f : Nat → α) (d : α) (n j : Nat) (h : j < n) :
    ((List.range n).map f).getD j d = f j := by
  have hlen : j < ((List.range n).map f).length := by simp [h]
  rw [List.getD_eq_getElem _ _ hlen]
  simp

/-! ### Facts about `make_deductions` and the extracted lines -/

theorem make_deductions_none_iff {line : List Int} {clues : List Nat} :
    make_deductions line clues = none ↔ check_consistency line clues = false := by
  unfold make_deductions
  by_cases hc : check_consistency line clues = true
  · rw [if_pos hc]
    simp [hc]
  · rw [if_neg hc]
    simp
    simpa using hc

theorem make_deductions_some_check {line : List Int} {clues : List Nat}
    {ds : List (Nat × Int)} (h : make_deductions line clues = some ds) :
    check_consistency line clues = true ∧ ds = deduceFrom line clues line.length 0 := by
  unfold make_deductions at h
  by_cases hc : check_consistency line clues = true
  · rw [if_pos hc] at h
    exact ⟨hc, (Option.some.inj h).symm⟩
  · rw [if_neg hc] at h
    exact absurd h (by simp)

theorem make_deductions_mem {line : List Int} {clues : List Nat}
    {ds : List (Nat × Int)} (h : make_deductions line clues = some ds) :
    ∀ d ∈ ds, line.getD d.1 0 = 0 ∧ d.1 < line.length ∧ (d.2 = -1 ∨ d.2 = 1) := by
  intro d hd
  obtain ⟨_, hds⟩ := make_deductions_some_check h
  subst hds
  obtain ⟨h1, _, h3, h4⟩ := deduceFrom_mem line clues line.length 0 d hd
  refine ⟨h1, by omega, ?_⟩
  rcases h4 with ⟨hv, _⟩ | ⟨hv, _⟩
  · exact Or.inl hv
  · exact Or.inr hv

theorem make_deductions_mem_ne {line : List Int} {clues : List Nat}
    {ds : List (Nat × Int)} (h : make_deductions line clues = some ds) :
    ∀ d ∈ ds, d.2 ≠ 0 := by
  intro d hd
  rcases (make_deductions_mem h d hd).2.2 with hv | hv <;> rw [hv] <;> decide

theorem rowLine_length (st : HState) (index : Nat) :
    (rowLine st index).length = st.width := by
  simp [rowLine]

theorem colLine_length (st : HState) (index : Nat) :
    (colLine st index).length = st.height := by
  simp [colLine]

theorem rowLine_getD (st : HState) (index j : Nat) (hj : j < st.width) :
    (rowLine st index).getD j 0 = (st.grid.getD index []).getD j 0 := by
  unfold rowLine
  exact getD_map_range _ _ _ _ hj

theorem colLine_getD (st : HState) (index i : Nat) (hi : i < st.height) :
    (colLine st index).getD i 0 = (st.grid.getD i []).getD index 0 := by
  unfold colLine
  exact getD_map_range _ _ _ _ hi

/-! ### Characterising `single_pass_row` -/

theorem countUnknowns_grid (st1 st2 : HState) (h : st1.grid = st2.grid) :
    countUnknowns st1 = countUnknowns st2 := by
  unfold countUnknowns
  rw [h]

theorem spr_eq_none {st : HState} {index : Nat}
    (h : make_deductions (rowLine st index) (st.row_clues.getD index []) = none) :
    single_pass_row st index = none := by
  unfold single_pass_row
  rw [h]

theorem spr_eq_some {st : HState} {index : Nat} {deds : List (Nat × Int)}
    (h : make_deductions (rowLine st index) (st.row_clues.getD index []) = some deds) :
    single_pass_row st index =
      some { (deds.foldl (fun acc d => { acc with
          grid := acc.grid.set index ((acc.grid.getD index []).set d.1 d.2),
          cols_to_check := acc.cols_to_check.set d.1 true }) st) with
        rows_to_check := (deds.foldl (fun acc d => { acc with
          grid := acc.grid.set index ((acc.grid.getD index []).set d.1 d.2),
          cols_to_check := acc.cols_to_check.set d.1 true }) st).rows_to_check.set index false } := by
  unfold single_pass_row
  rw [h]

theorem spr_inv {st : HState} {index : Nat} {st' : HState}
    (h : single_pass_row st index = some st') :
    ∃ deds, make_deductions (rowLine st index) (st.row_clues.getD index []) = some deds ∧
      st' = { (deds.foldl (fun acc d => { acc with
          grid := acc.grid.set index ((acc.grid.getD index []).set d.1 d.2),
          cols_to_check := acc.cols_to_check.set d.1 true }) st) with
        rows_to_check := (deds.foldl (fun acc d => { acc with
          grid := acc.grid.set index ((acc.grid.getD index []).set d.1 d.2),
          cols_to_check := acc.cols_to_check.set d.1 true }) st).rows_to_check.set index false } := by
  cases hm : make_deductions (rowLine st index) (st.row_clues.getD index []) with
  | none => rw [spr_eq_none hm] at h; exact absurd h (by simp)
  | some deds =>
    refine ⟨deds, rfl, ?_⟩
    rw [spr_eq_some hm] at h
    exact (Option.some.inj h).symm

theorem spr_props {st : HState} {index : Nat} {st' : HState}
    (h : single_pass_row st index = some st') :
    st'.width = st.width ∧ st'.height = st.height ∧
    st'.row_clues = st.row_clues ∧ st'.col_clues = st.col_clues ∧
    st'.grid.length = st.grid.length ∧
    (∀ r, (st'.grid.getD r []).length = (st.grid.getD r []).length) ∧
    st'.rows_to_check = st.rows_to_check.set index false ∧
    st'.cols_to_check.length = st.cols_to_check.length ∧
    countUnknowns st' ≤ countUnknowns st := by
  obtain ⟨deds, hm, hst⟩ := spr_inv h
  obtain ⟨h1, h2, h3, h4, h5, h6, h7, h8⟩ := rowFold_fields index deds st
  subst hst
  refine ⟨h1, h2, h3, h4, h6, h8, by rw [h5], h7, ?_⟩
  exact rowFold_count_le index deds st (make_deductions_mem_ne hm)

theorem spr_nonzero_cell {st : HState} {index : Nat} {st' : HState}
    (h : single_pass_row st index = some st') (i j : Nat)
    (hij : (st.grid.getD i []).getD j 0 ≠ 0) :
    (st'.grid.getD i []).getD j 0 = (st.grid.getD i []).getD j 0 := by
  obtain ⟨deds, hm, hst⟩ := spr_inv h
  subst hst
  refine rowFold_cell index deds st i j ?_
  intro d hd ⟨hie, hje⟩
  obtain ⟨h0, hlt, _⟩ := make_deductions_mem hm d hd
  rw [rowLine_length] at hlt
  rw [rowLine_getD st index d.1 hlt] at h0
  rw [← hie, ← hje] at hij
  exact hij h0

theorem spr_WF {st : HState} {index : Nat} {st' : HState}
    (hWF : WF st) (h : single_pass_row st index = some st') : WF st' := by
  obtain ⟨hg, hrows, hrl, hcl⟩ := hWF
  obtain ⟨h1, h2, _, _, h5, h6, h7, h8, _⟩ := spr_props h
  refine ⟨by rw [h5, h2, hg], ?_, by rw [h7, List.length_set, hrl, h2], by rw [h8, hcl, h1]⟩
  intro row hrow
  obtain ⟨r, hr, he⟩ := mem_exists_getD _ row hrow
  rw [← he, h6 r, h1]
  rw [h5] at hr
  exact hrows _ (getD_mem _ r hr)

theorem spr_stagnant {st : HState} {index : Nat} {st' : HState}
    (hWF : WF st) (hidx : index < st.height)
    (h : single_pass_row st index = some st')
    (hcnt : countUnknowns st' = countUnknowns st) :
    st'.grid = st.grid ∧ st'.cols_to_check = st.cols_to_check ∧
    st'.rows_to_check = st.rows_to_check.set index false := by
  obtain ⟨hg, hrows, _, _⟩ := hWF
  obtain ⟨deds, hm, hst⟩ := spr_inv h
  match hde : deds with
  | [] =>
    subst hst
    exact ⟨rfl, rfl, rfl⟩
  | d :: rest =>
    exfalso
    have hvd : d.2 ≠ 0 := make_deductions_mem_ne hm d (by simp)
    have hvr : ∀ d' ∈ rest, d'.2 ≠ 0 :=
      fun d' hd' => make_deductions_mem_ne hm d' (List.mem_cons_of_mem _ hd')
    have hgidx : index < st.grid.length := by omega
    have hrlen : (st.grid.getD index []).length = st.width :=
      hrows _ (getD_mem _ index hgidx)
    have hd1 : d.1 < (st.grid.getD index []).length := by
      have := (make_deductions_mem hm d (by simp)).2.1
      rw [rowLine_length] at this
      omega
    have h0 : (st.grid.getD index []).getD d.1 0 = 0 := by
      have := (make_deductions_mem hm d (by simp)).1
      rw [rowLine_getD st index d.1 (by omega)] at this
      exact this
    have hlt := rowFold_count_lt index d rest st hvd hvr hgidx hd1 h0
    have : countUnknowns st' =
        countUnknowns ((d :: rest).foldl (fun acc d => { acc with
          grid := acc.grid.set index ((acc.grid.getD index []).set d.1 d.2),
          cols_to_check := acc.cols_to_check.set d.1 true }) st) := by
      refine countUnknowns_grid _ _ ?_
      rw [hst]
    omega


/-! ### Characterising `single_pass_col` -/

theorem spc_eq_none {st : HState} {index : Nat}
    (h : make_deductions (colLine st index) (st.col_clues.getD index []) = none) :
    single_pass_col st index = none := by
  unfold single_pass_col
  rw [h]

theorem spc_eq_some {st : HState} {index : Nat} {deds : List (Nat × Int)}
    (h : make_deductions (colLine st index) (st.col_clues.getD index []) = some deds) :
    single_pass_col st index =
      some { (deds.foldl (fun acc d => { acc with
          grid := acc.grid.set d.1 ((acc.grid.getD d.1 []).set index d.2),
          rows_to_check := acc.rows_to_check.set d.1 true }) st) with
        cols_to_check := (deds.foldl (fun acc d => { acc with
          grid := acc.grid.set d.1 ((acc.grid.getD d.1 []).set index d.2),
          rows_to_check := acc.rows_to_check.set d.1 true }) st).cols_to_check.set index false } := by
  unfold single_pass_col
  rw [h]

theorem spc_inv {st : HState} {index : Nat} {st' : HState}
    (h : single_pass_col st index = some st') :
    ∃ deds, make_deductions (colLine st index) (st.col_clues.getD index []) = some deds ∧
      st' = { (deds.foldl (fun acc d => { acc with
          grid := acc.grid.set d.1 ((acc.grid.getD d.1 []).set index d.2),
          rows_to_check := acc.rows_to_check.set d.1 true }) st) with
        cols_to_check := (deds.foldl (fun acc d => { acc with
          grid := acc.grid.set d.1 ((acc.grid.getD d.1 []).set index d.2),
          rows_to_check := acc.rows_to_check.set d.1 true }) st).cols_to_check.set index false } := by
  cases hm : make_deductions (colLine st index) (st.col_clues.getD index []) with
  | none => rw [spc_eq_none hm] at h; exact absurd h (by simp)
  | some deds =>
    refine ⟨deds, rfl, ?_⟩
    rw [spc_eq_some hm] at h
    exact (Option.some.inj h).symm

theorem spc_props {st : HState} {index : Nat} {st' : HState}
    (h : single_pass_col st index = some st') :
    st'.width = st.width ∧ st'.height = st.height ∧
    st'.row_clues = st.row_clues ∧ st'.col_clues = st.col_clues ∧
    st'.grid.length = st.grid.length ∧
    (∀ r, (st'.grid.getD r []).length = (st.grid.getD r []).length) ∧
    st'.cols_to_check = st.cols_to_check.set index false ∧
    st'.rows_to_check.length = st.rows_to_check.length ∧
    countUnknowns st' ≤ countUnknowns st := by
  obtain ⟨deds, hm, hst⟩ := spc_inv h
  obtain ⟨h1, h2, h3, h4, h5, h6, h7, h8⟩ := colFold_fields index deds st
  subst hst
  refine ⟨h1, h2, h3, h4, h6, h8, by rw [h5], h7, ?_⟩
  exact colFold_count_le index deds st (make_deductions_mem_ne hm)

theorem spc_nonzero_cell {st : HState} {index : Nat} {st' : HState}
    (h : single_pass_col st index = some st') (i j : Nat)
    (hij : (st.grid.getD i []).getD j 0 ≠ 0) :
    (st'.grid.getD i []).getD j 0 = (st.grid.getD i []).getD j 0 := by
  obtain ⟨deds, hm, hst⟩ := spc_inv h
  subst hst
  refine colFold_cell index deds st i j ?_
  intro d hd ⟨hie, hje⟩
  obtain ⟨h0, hlt, _⟩ := make_deductions_mem hm d hd
  rw [colLine_length] at hlt
  rw [colLine_getD st index d.1 hlt] at h0
  rw [← hie, ← hje] at hij
  exact hij h0

theorem spc_WF {st : HState} {index : Nat} {st' : HState}
    (hWF : WF st) (h : single_pass_col st index = some st') : WF st' := by
  obtain ⟨hg, hrows, hrl, hcl⟩ := hWF
  obtain ⟨h1, h2, _, _, h5, h6, h7, h8, _⟩ := spc_props h
  refine ⟨by rw [h5, h2, hg], ?_, by rw [h8, hrl, h2], by rw [h7, List.length_set, hcl, h1]⟩
  intro row hrow
  obtain ⟨r, hr, he⟩ := mem_exists_getD _ row hrow
  rw [← he, h6 r, h1]
  rw [h5] at hr
  exact hrows _ (getD_mem _ r hr)

theorem spc_stagnant {st : HState} {index : Nat} {st' : HState}
    (hWF : WF st) (hidx : index < st.width)
    (h : single_pass_col st index = some st')
    (hcnt : countUnknowns st' = countUnknowns st) :
    st'.grid = st.grid ∧ st'.rows_to_check = st.rows_to_check ∧
    st'.cols_to_check = st.cols_to_check.set index false := by
  obtain ⟨hg, hrows, _, _⟩ := hWF
  obtain ⟨deds, hm, hst⟩ := spc_inv h
  match hde : deds with
  | [] =>
    subst hst
    exact ⟨rfl, rfl, rfl⟩
  | d :: rest =>
    exfalso
    have hvd : d.2 ≠ 0 := make_deductions_mem_ne hm d (by simp)
    have hvr : ∀ d' ∈ rest, d'.2 ≠ 0 :=
      fun d' hd' => make_deductions_mem_ne hm d' (List.mem_cons_of_mem _ hd')
    have hgidx : d.1 < st.grid.length := by
      have := (make_deductions_mem hm d (by simp)).2.1
      rw [colLine_length] at this
      omega
    have hrlen : (st.grid.getD d.1 []).length = st.width :=
      hrows _ (getD_mem _ d.1 hgidx)
    have hd1 : index < (st.grid.getD d.1 []).length := by omega
    have h0 : (st.grid.getD d.1 []).getD index 0 = 0 := by
      have h1 := (make_deductions_mem hm d (by simp)).1
      have h2 := (make_deductions_mem hm d (by simp)).2.1
      rw [colLine_length] at h2
      rw [colLine_getD st index d.1 (by omega)] at h1
      exact h1
    have hlt := colFold_count_lt index d rest st hvd hvr hgidx hd1 h0
    have : countUnknowns st' =
        countUnknowns ((d :: rest).foldl (fun acc d => { acc with
          grid := acc.grid.set d.1 ((acc.grid.getD d.1 []).set index d.2),
          rows_to_check := acc.rows_to_check.set d.1 true }) st) := by
      refine countUnknowns_grid _ _ ?_
      rw [hst]
    omega


theorem getD_ge {α : Type} : ∀ (l : List α) (i : Nat) (d : α), l.length ≤ i →
    l.getD i d = d := by
  intro l
  induction l with
  | nil => intro i d h; rfl
  | cons a t ih =>
    intro i d h
    match i with
    | 0 => simp at h
    | i + 1 =>
      rw [List.getD_cons_succ]
      exact ih i d (by simp at h; omega)

theorem spr_none_inv {st : HState} {index : Nat}
    (h : single_pass_row st index = none) :
    make_deductions (rowLine st index) (st.row_clues.getD index []) = none := by
  cases hm : make_deductions (rowLine st index) (st.row_clues.getD index []) with
  | none => rfl
  | some deds => rw [spr_eq_some hm] at h; exact absurd h (by simp)

theorem spc_none_inv {st : HState} {index : Nat}
    (h : single_pass_col st index = none) :
    make_deductions (colLine st index) (st.col_clues.getD index []) = none := by
  cases hm : make_deductions (colLine st index) (st.col_clues.getD index []) with
  | none => rfl
  | some deds => rw [spc_eq_some hm] at h; exact absurd h (by simp)

/-! ### One pass over the rows -/

theorem passRows_cons_skip (st : HState) (i : Nat) (rest : List Nat)
    (h : st.rows_to_check.getD i false = false) :
    passRows st (i :: rest) = passRows st rest := by
  rw [passRows, if_neg (by rw [h]; simp)]

theorem passRows_cons_fail (st : HState) (i : Nat) (rest : List Nat)
    (h1 : st.rows_to_check.getD i false = true)
    (h2 : single_pass_row st i = none) :
    passRows st (i :: rest) = ⟨[.row i], true, st, false⟩ := by
  rw [passRows, if_pos h1, h2]

theorem passRows_cons_step (st : HState) (i : Nat) (rest : List Nat) (st' : HState)
    (h1 : st.rows_to_check.getD i false = true)
    (h2 : single_pass_row st i = some st') :
    passRows st (i :: rest) = ⟨.row i :: (passRows st' rest).trace, true,
      (passRows st' rest).state, (passRows st' rest).ok⟩ := by
  rw [passRows, if_pos h1, h2]

theorem passRows_all_false : ∀ (l : List Nat) (st : HState),
    (∀ i, st.rows_to_check.getD i false = false) →
    passRows st l = ⟨[], false, st, true⟩ := by
  intro l
  induction l with
  | nil => intro st _; rfl
  | cons i rest ih =>
    intro st h
    rw [passRows_cons_skip st i rest (h i)]
    exact ih st h

theorem passRows_ok : ∀ (l : List Nat) (st : HState), WF st →
    (passRows st l).ok = true →
    WF (passRows st l).state ∧
    (passRows st l).state.width = st.width ∧
    (passRows st l).state.height = st.height ∧
    (passRows st l).state.row_clues = st.row_clues ∧
    (passRows st l).state.col_clues = st.col_clues ∧
    countUnknowns (passRows st l).state ≤ countUnknowns st ∧
    (∀ i j, (st.grid.getD i []).getD j 0 ≠ 0 →
      ((passRows st l).state.grid.getD i []).getD j 0 = (st.grid.getD i []).getD j 0) := by
  intro l
  induction l with
  | nil =>
    intro st hWF _
    exact ⟨hWF, rfl, rfl, rfl, rfl, le_refl _, fun i j _ => rfl⟩
  | cons i rest ih =>
    intro st hWF hok
    by_cases hflag : st.rows_to_check.getD i false = true
    · cases hsp : single_pass_row st i with
      | none =>
        rw [passRows_cons_fail st i rest hflag hsp] at hok
        exact absurd hok (by simp)
      | some st' =>
        rw [passRows_cons_step st i rest st' hflag hsp] at hok ⊢
        simp only at hok ⊢
        have hWF' := spr_WF hWF hsp
        obtain ⟨hw, hh, hrc, hcc, _, _, _, _, hcnt⟩ := spr_props hsp
        obtain ⟨k1, k2, k3, k4, k5, k6, k7⟩ := ih st' hWF' hok
        refine ⟨k1, by rw [k2, hw], by rw [k3, hh], by rw [k4, hrc], by rw [k5, hcc],
          le_trans k6 hcnt, ?_⟩
        intro a b hab
        have h1 := spr_nonzero_cell hsp a b hab
        rw [k7 a b (by rw [h1]; exact hab), h1]
    · rw [passRows_cons_skip st i rest (by simpa using hflag)] at hok ⊢
      exact ih st hWF hok

theorem passRows_stagnant : ∀ (l : List Nat) (st : HState), WF st →
    (passRows st l).ok = true →
    countUnknowns (passRows st l).state = countUnknowns st →
    (passRows st l).state.grid = st.grid ∧
    (passRows st l).state.cols_to_check = st.cols_to_check ∧
    (∀ i, (passRows st l).state.rows_to_check.getD i false =
      if i ∈ l then false else st.rows_to_check.getD i false) := by
  intro l
  induction l with
  | nil =>
    intro st _ _ _
    exact ⟨rfl, rfl, fun i => by simp [passRows]⟩
  | cons i rest ih =>
    intro st hWF hok hcnt
    by_cases hflag : st.rows_to_check.getD i false = true
    · cases hsp : single_pass_row st i with
      | none =>
        rw [passRows_cons_fail st i rest hflag hsp] at hok
        exact absurd hok (by simp)
      | some st' =>
        rw [passRows_cons_step st i rest st' hflag hsp] at hok hcnt ⊢
        simp only at hok hcnt ⊢
        have hWF' := spr_WF hWF hsp
        have hle1 := (spr_props hsp).2.2.2.2.2.2.2.2
        have hle2 := (passRows_ok rest st' hWF' hok).2.2.2.2.2.1
        have hcnt' : countUnknowns st' = countUnknowns st := by omega
        have hcnt'' : countUnknowns (passRows st' rest).state = countUnknowns st' := by omega
        have hi : i < st.height := by
          have := getD_true_lt _ _ hflag
          have := hWF.2.2.1
          omega
        obtain ⟨hg', hc', hr'⟩ := spr_stagnant hWF hi hsp hcnt'
        obtain ⟨kg, kc, kr⟩ := ih st' hWF' hok hcnt''
        refine ⟨by rw [kg, hg'], by rw [kc, hc'], ?_⟩
        intro a
        rw [kr a, hr']
        by_cases ha : a ∈ rest
        · rw [if_pos ha, if_pos (by simp [ha])]
        · rw [if_neg ha]
          by_cases hai : a = i
          · subst hai
            rw [if_pos (by simp), getD_set_self _ _ _ _ (by
              have := hWF.2.2.1
              omega)]
          · rw [getD_set_ne _ _ _ _ _ hai, if_neg (by simp [ha, hai])]
    · rw [passRows_cons_skip st i rest (by simpa using hflag)] at hok hcnt ⊢
      obtain ⟨kg, kc, kr⟩ := ih st hWF hok hcnt
      refine ⟨kg, kc, ?_⟩
      intro a
      rw [kr a]
      by_cases ha : a ∈ rest
      · rw [if_pos ha, if_pos (by simp [ha])]
      · rw [if_neg ha]
        by_cases hai : a = i
        · subst hai
          rw [if_pos (by simp), (by simpa using hflag : st.rows_to_check.getD a false = false)]
        · rw [if_neg (by simp [ha, hai])]

theorem passRows_fail : ∀ (l : List Nat) (st : HState),
    (passRows st l).ok = false →
    ∃ t i, (passRows st l).trace = t ++ [.row i] ∧
      (passRows st l).state.rows_to_check.getD i false = true ∧
      make_deductions (rowLine (passRows st l).state i)
        ((passRows st l).state.row_clues.getD i []) = none := by
  intro l
  induction l with
  | nil => intro st h; exact absurd h (by simp [passRows])
  | cons i rest ih =>
    intro st hok
    by_cases hflag : st.rows_to_check.getD i false = true
    · cases hsp : single_pass_row st i with
      | none =>
        rw [passRows_cons_fail st i rest hflag hsp]
        exact ⟨[], i, rfl, hflag, spr_none_inv hsp⟩
      | some st' =>
        rw [passRows_cons_step st i rest st' hflag hsp] at hok ⊢
        simp only at hok ⊢
        obtain ⟨t, a, ht, h1, h2⟩ := ih st' hok
        exact ⟨.row i :: t, a, by rw [ht]; rfl, h1, h2⟩
    · rw [passRows_cons_skip st i rest (by simpa using hflag)] at hok ⊢
      exact ih st hok


/-! ### One pass over the columns -/

theorem passCols_cons_skip (st : HState) (i : Nat) (rest : List Nat)
    (h : st.cols_to_check.getD i false = false) :
    passCols st (i :: rest) = passCols st rest := by
  rw [passCols, if_neg (by rw [h]; simp)]

theorem passCols_cons_fail (st : HState) (i : Nat) (rest : List Nat)
    (h1 : st.cols_to_check.getD i false = true)
    (h2 : single_pass_col st i = none) :
    passCols st (i :: rest) = ⟨[.col i], true, st, false⟩ := by
  rw [passCols, if_pos h1, h2]

theorem passCols_cons_step (st : HState) (i : Nat) (rest : List Nat) (st' : HState)
    (h1 : st.cols_to_check.getD i false = true)
    (h2 : single_pass_col st i = some st') :
    passCols st (i :: rest) = ⟨.col i :: (passCols st' rest).trace, true,
      (passCols st' rest).state, (passCols st' rest).ok⟩ := by
  rw [passCols, if_pos h1, h2]

theorem passCols_all_false : ∀ (l : List Nat) (st : HState),
    (∀ i, st.cols_to_check.getD i false = false) →
    passCols st l = ⟨[], false, st, true⟩ := by
  intro l
  induction l with
  | nil => intro st _; rfl
  | cons i rest ih =>
    intro st h
    rw [passCols_cons_skip st i rest (h i)]
    exact ih st h

theorem passCols_ok : ∀ (l : List Nat) (st : HState), WF st →
    (passCols st l).ok = true →
    WF (passCols st l).state ∧
    (passCols st l).state.width = st.width ∧
    (passCols st l).state.height = st.height ∧
    (passCols st l).state.row_clues = st.row_clues ∧
    (passCols st l).state.col_clues = st.col_clues ∧
    countUnknowns (passCols st l).state ≤ countUnknowns st ∧
    (∀ i j, (st.grid.getD i []).getD j 0 ≠ 0 →
      ((passCols st l).state.grid.getD i []).getD j 0 = (st.grid.getD i []).getD j 0) := by
  intro l
  induction l with
  | nil =>
    intro st hWF _
    exact ⟨hWF, rfl, rfl, rfl, rfl, le_refl _, fun i j _ => rfl⟩
  | cons i rest ih =>
    intro st hWF hok
    by_cases hflag : st.cols_to_check.getD i false = true
    · cases hsp : single_pass_col st i with
      | none =>
        rw [passCols_cons_fail st i rest hflag hsp] at hok
        exact absurd hok (by simp)
      | some st' =>
        rw [passCols_cons_step st i rest st' hflag hsp] at hok ⊢
        simp only at hok ⊢
        have hWF' := spc_WF hWF hsp
        obtain ⟨hw, hh, hrc, hcc, _, _, _, _, hcnt⟩ := spc_props hsp
        obtain ⟨k1, k2, k3, k4, k5, k6, k7⟩ := ih st' hWF' hok
        refine ⟨k1, by rw [k2, hw], by rw [k3, hh], by rw [k4, hrc], by rw [k5, hcc],
          le_trans k6 hcnt, ?_⟩
        intro a b hab
        have h1 := spc_nonzero_cell hsp a b hab
        rw [k7 a b (by rw [h1]; exact hab), h1]
    · rw [passCols_cons_skip st i rest (by simpa using hflag)] at hok ⊢
      exact ih st hWF hok

theorem passCols_stagnant : ∀ (l : List Nat) (st : HState), WF st →
    (passCols st l).ok = true →
    countUnknowns (passCols st l).state = countUnknowns st →
    (passCols st l).state.grid = st.grid ∧
    (passCols st l).state.rows_to_check = st.rows_to_check ∧
    (∀ i, (passCols st l).state.cols_to_check.getD i false =
      if i ∈ l then false else st.cols_to_check.getD i false) := by
  intro l
  induction l with
  | nil =>
    intro st _ _ _
    exact ⟨rfl, rfl, fun i => by simp [passCols]⟩
  | cons i rest ih =>
    intro st hWF hok hcnt
    by_cases hflag : st.cols_to_check.getD i false = true
    · cases hsp : single_pass_col st i with
      | none =>
        rw [passCols_cons_fail st i rest hflag hsp] at hok
        exact absurd hok (by simp)
      | some st' =>
        rw [passCols_cons_step st i rest st' hflag hsp] at hok hcnt ⊢
        simp only at hok hcnt ⊢
        have hWF' := spc_WF hWF hsp
        have hle1 := (spc_props hsp).2.2.2.2.2.2.2.2
        have hle2 := (passCols_ok rest st' hWF' hok).2.2.2.2.2.1
        have hcnt' : countUnknowns st' = countUnknowns st := by omega
        have hcnt'' : countUnknowns (passCols st' rest).state = countUnknowns st' := by omega
        have hi : i < st.width := by
          have := getD_true_lt _ _ hflag
          have := hWF.2.2.2
          omega
        obtain ⟨hg', hr', hc'⟩ := spc_stagnant hWF hi hsp hcnt'
        obtain ⟨kg, kr, kc⟩ := ih st' hWF' hok hcnt''
        refine ⟨by rw [kg, hg'], by rw [kr, hr'], ?_⟩
        intro a
        rw [kc a, hc']
        by_cases ha : a ∈ rest
        · rw [if_pos ha, if_pos (by simp [ha])]
        · rw [if_neg ha]
          by_cases hai : a = i
          · subst hai
            rw [if_pos (by simp), getD_set_self _ _ _ _ (by
              have := hWF.2.2.2
              omega)]
          · rw [getD_set_ne _ _ _ _ _ hai, if_neg (by simp [ha, hai])]
    · rw [passCols_cons_skip st i rest (by simpa using hflag)] at hok hcnt ⊢
      obtain ⟨kg, kr, kc⟩ := ih st hWF hok hcnt
      refine ⟨kg, kr, ?_⟩
      intro a
      rw [kc a]
      by_cases ha : a ∈ rest
      · rw [if_pos ha, if_pos (by simp [ha])]
      · rw [if_neg ha]
        by_cases hai : a = i
        · subst hai
          rw [if_pos (by simp), (by simpa using hflag : st.cols_to_check.getD a false = false)]
        · rw [if_neg (by simp [ha, hai])]

theorem passCols_fail : ∀ (l : List Nat) (st : HState),
    (passCols st l).ok = false →
    ∃ t i, (passCols st l).trace = t ++ [.col i] ∧
      (passCols st l).state.cols_to_check.getD i false = true ∧
      make_deductions (colLine (passCols st l).state i)
        ((passCols st l).state.col_clues.getD i []) = none := by
  intro l
  induction l with
  | nil => intro st h; exact absurd h (by simp [passCols])
  | cons i rest ih =>
    intro st hok
    by_cases hflag : st.cols_to_check.getD i false = true
    · cases hsp : single_pass_col st i with
      | none =>
        rw [passCols_cons_fail st i rest hflag hsp]
        exact ⟨[], i, rfl, hflag, spc_none_inv hsp⟩
      | some st' =>
        rw [passCols_cons_step st i rest st' hflag hsp] at hok ⊢
        simp only at hok ⊢
        obtain ⟨t, a, ht, h1, h2⟩ := ih st' hok
        exact ⟨.col i :: t, a, by rw [ht]; rfl, h1, h2⟩
    · rw [passCols_cons_skip st i rest (by simpa using hflag)] at hok ⊢
      exact ih st hok


/-! ### State preservation through passes, also across a failing probe -/

theorem passRows_props : ∀ (l : List Nat) (st : HState), WF st →
    WF (passRows st l).state ∧
    (passRows st l).state.width = st.width ∧
    (passRows st l).state.height = st.height ∧
    (passRows st l).state.row_clues = st.row_clues ∧
    (passRows st l).state.col_clues = st.col_clues ∧
    countUnknowns (passRows st l).state ≤ countUnknowns st ∧
    (∀ i j, (st.grid.getD i []).getD j 0 ≠ 0 →
      ((passRows st l).state.grid.getD i []).getD j 0 = (st.grid.getD i []).getD j 0) := by
  intro l
  induction l with
  | nil =>
    intro st hWF
    exact ⟨hWF, rfl, rfl, rfl, rfl, le_refl _, fun i j _ => rfl⟩
  | cons i rest ih =>
    intro st hWF
    by_cases hflag : st.rows_to_check.getD i false = true
    · cases hsp : single_pass_row st i with
      | none =>
        rw [passRows_cons_fail st i rest hflag hsp]
        exact ⟨hWF, rfl, rfl, rfl, rfl, le_refl _, fun i j _ => rfl⟩
      | some st' =>
        rw [passRows_cons_step st i rest st' hflag hsp]
        simp only
        have hWF' := spr_WF hWF hsp
        obtain ⟨hw, hh, hrc, hcc, _, _, _, _, hcnt⟩ := spr_props hsp
        obtain ⟨k1, k2, k3, k4, k5, k6, k7⟩ := ih st' hWF'
        refine ⟨k1, by rw [k2, hw], by rw [k3, hh], by rw [k4, hrc], by rw [k5, hcc],
          le_trans k6 hcnt, ?_⟩
        intro a b hab
        have h1 := spr_nonzero_cell hsp a b hab
        rw [k7 a b (by rw [h1]; exact hab), h1]
    · rw [passRows_cons_skip st i rest (by simpa using hflag)]
      exact ih st hWF

theorem passCols_props : ∀ (l : List Nat) (st : HState), WF st →
    WF (passCols st l).state ∧
    (passCols st l).state.width = st.width ∧
    (passCols st l).state.height = st.height ∧
    (passCols st l).state.row_clues = st.row_clues ∧
    (passCols st l).state.col_clues = st.col_clues ∧
    countUnknowns (passCols st l).state ≤ countUnknowns st ∧
    (∀ i j, (st.grid.getD i []).getD j 0 ≠ 0 →
      ((passCols st l).state.grid.getD i []).getD j 0 = (st.grid.getD i []).getD j 0) := by
  intro l
  induction l with
  | nil =>
    intro st hWF
    exact ⟨hWF, rfl, rfl, rfl, rfl, le_refl _, fun i j _ => rfl⟩
  | cons i rest ih =>
    intro st hWF
    by_cases hflag : st.cols_to_check.getD i false = true
    · cases hsp : single_pass_col st i with
      | none =>
        rw [passCols_cons_fail st i rest hflag hsp]
        exact ⟨hWF, rfl, rfl, rfl, rfl, le_refl _, fun i j _ => rfl⟩
      | some st' =>
        rw [passCols_cons_step st i rest st' hflag hsp]
        simp only
        have hWF' := spc_WF hWF hsp
        obtain ⟨hw, hh, hrc, hcc, _, _, _, _, hcnt⟩ := spc_props hsp
        obtain ⟨k1, k2, k3, k4, k5, k6, k7⟩ := ih st' hWF'
        refine ⟨k1, by rw [k2, hw], by rw [k3, hh], by rw [k4, hrc], by rw [k5, hcc],
          le_trans k6 hcnt, ?_⟩
        intro a b hab
        have h1 := spc_nonzero_cell hsp a b hab
        rw [k7 a b (by rw [h1]; exact hab), h1]
    · rw [passCols_cons_skip st i rest (by simpa using hflag)]
      exact ih st hWF

/-! ### One iteration of the solve loop -/

theorem runPass_eq_fail {st : HState}
    (h : (passRows st (List.range st.height)).ok = false) :
    runPass st = passRows st (List.range st.height) := by
  simp only [runPass]
  rw [if_neg (by rw [h]; simp)]

theorem runPass_eq_ok {st : HState}
    (h : (passRows st (List.range st.height)).ok = true) :
    runPass st = ⟨(passRows st (List.range st.height)).trace ++
        (passCols (passRows st (List.range st.height)).state
          (List.range (passRows st (List.range st.height)).state.width)).trace,
      (passRows st (List.range st.height)).made ||
        (passCols (passRows st (List.range st.height)).state
          (List.range (passRows st (List.range st.height)).state.width)).made,
      (passCols (passRows st (List.range st.height)).state
        (List.range (passRows st (List.range st.height)).state.width)).state,
      (passCols (passRows st (List.range st.height)).state
        (List.range (passRows st (List.range st.height)).state.width)).ok⟩ := by
  simp only [runPass]
  rw [if_pos h]

theorem runPass_all_false {st : HState}
    (hr : ∀ i, st.rows_to_check.getD i false = false)
    (hc : ∀ i, st.cols_to_check.getD i false = false) :
    runPass st = ⟨[], false, st, true⟩ := by
  have h1 := passRows_all_false (List.range st.height) st hr
  rw [runPass_eq_ok (by rw [h1]), h1]
  simp only
  rw [passCols_all_false _ st hc]
  simp

theorem runPass_props {st : HState} (hWF : WF st) :
    WF (runPass st).state ∧
    (runPass st).state.width = st.width ∧
    (runPass st).state.height = st.height ∧
    (runPass st).state.row_clues = st.row_clues ∧
    (runPass st).state.col_clues = st.col_clues ∧
    countUnknowns (runPass st).state ≤ countUnknowns st ∧
    (∀ i j, (st.grid.getD i []).getD j 0 ≠ 0 →
      ((runPass st).state.grid.getD i []).getD j 0 = (st.grid.getD i []).getD j 0) := by
  by_cases h1 : (passRows st (List.range st.height)).ok = true
  · rw [runPass_eq_ok h1]
    simp only
    obtain ⟨k1, k2, k3, k4, k5, k6, k7⟩ := passRows_props (List.range st.height) st hWF
    obtain ⟨m1, m2, m3, m4, m5, m6, m7⟩ :=
      passCols_props (List.range (passRows st (List.range st.height)).state.width) _ k1
    refine ⟨m1, by rw [m2, k2], by rw [m3, k3], by rw [m4, k4], by rw [m5, k5],
      le_trans m6 k6, ?_⟩
    intro a b hab
    have h2 := k7 a b hab
    rw [m7 a b (by rw [h2]; exact hab), h2]
  · rw [runPass_eq_fail (by simpa using h1)]
    exact passRows_props (List.range st.height) st hWF

theorem runPass_stagnant {st : HState} (hWF : WF st)
    (hok : (runPass st).ok = true)
    (hcnt : countUnknowns (runPass st).state = countUnknowns st) :
    (∀ i, (runPass st).state.rows_to_check.getD i false = false) ∧
    (∀ i, (runPass st).state.cols_to_check.getD i false = false) := by
  by_cases h1 : (passRows st (List.range st.height)).ok = true
  · rw [runPass_eq_ok h1] at hok hcnt ⊢
    simp only at hok hcnt ⊢
    obtain ⟨k1, _, _, _, _, k6, _⟩ := passRows_props (List.range st.height) st hWF
    obtain ⟨_, _, _, _, _, m6, _⟩ :=
      passCols_props (List.range (passRows st (List.range st.height)).state.width) _ k1
    have hcr : countUnknowns (passRows st (List.range st.height)).state = countUnknowns st := by
      omega
    have hcc : countUnknowns (passCols (passRows st (List.range st.height)).state
        (List.range (passRows st (List.range st.height)).state.width)).state =
        countUnknowns (passRows st (List.range st.height)).state := by
      omega
    obtain ⟨rg, rc, rf⟩ := passRows_stagnant (List.range st.height) st hWF h1 hcr
    obtain ⟨cg, cr, cf⟩ := passCols_stagnant
      (List.range (passRows st (List.range st.height)).state.width) _ k1 hok hcc
    have hrall : ∀ i, (passRows st (List.range st.height)).state.rows_to_check.getD i false
        = false := by
      intro i
      rw [rf i]
      by_cases hi : i < st.height
      · rw [if_pos (by simpa using hi)]
      · rw [if_neg (by simpa using hi), getD_ge _ _ _ (by rw [hWF.2.2.1]; omega)]
    constructor
    · intro i
      rw [cr]
      exact hrall i
    · intro i
      rw [cf i]
      by_cases hi : i < (passRows st (List.range st.height)).state.width
      · rw [if_pos (by simpa using hi)]
      · rw [if_neg (by simpa using hi), rc,
          getD_ge _ _ _ ?_]
        have hw := (passRows_props (List.range st.height) st hWF).2.1
        rw [hWF.2.2.2]
        omega
  · rw [runPass_eq_fail (by simpa using h1)] at hok
    exact absurd hok h1

theorem runPass_fail {st : HState} (h : (runPass st).ok = false) :
    (∃ t i, (runPass st).trace = t ++ [.row i] ∧
      (runPass st).state.rows_to_check.getD i false = true ∧
      make_deductions (rowLine (runPass st).state i)
        ((runPass st).state.row_clues.getD i []) = none) ∨
    (∃ t i, (runPass st).trace = t ++ [.col i] ∧
      (runPass st).state.cols_to_check.getD i false = true ∧
      make_deductions (colLine (runPass st).state i)
        ((runPass st).state.col_clues.getD i []) = none) := by
  by_cases h1 : (passRows st (List.range st.height)).ok = true
  · rw [runPass_eq_ok h1] at h ⊢
    simp only at h ⊢
    right
    obtain ⟨t, i, ht, hf, hm⟩ := passCols_fail _ _ h
    exact ⟨(passRows st (List.range st.height)).trace ++ t, i,
      by rw [ht, List.append_assoc], hf, hm⟩
  · rw [runPass_eq_fail (by simpa using h1)] at h ⊢
    left
    exact passRows_fail _ st h


/-! ### The solve loop -/

theorem solveLoop_succ_fail {fuel : Nat} {st : HState}
    (h : (runPass st).ok = false) :
    solveLoop (fuel + 1) st =
      some ((runPass st).trace, (runPass st).state, .inconsistent) := by
  rw [solveLoop]
  rw [if_neg (by rw [h]; simp)]

theorem solveLoop_succ_done {fuel : Nat} {st : HState}
    (h1 : (runPass st).ok = true) (h2 : (runPass st).made = false) :
    solveLoop (fuel + 1) st =
      some ((runPass st).trace, (runPass st).state, .done) := by
  rw [solveLoop, if_pos h1]
  rw [if_neg (by rw [h2]; simp)]

theorem solveLoop_succ_step {fuel : Nat} {st : HState}
    (h1 : (runPass st).ok = true) (h2 : (runPass st).made = true) :
    solveLoop (fuel + 1) st =
      match solveLoop fuel (runPass st).state with
      | none => none
      | some (tr, st', r) => some ((runPass st).trace ++ tr, st', r) := by
  rw [solveLoop, if_pos h1, if_pos h2]

theorem solveLoop_props : ∀ (fuel : Nat) (st : HState) (tr : List LineId)
    (st' : HState) (r : SolveRes), WF st →
    solveLoop fuel st = some (tr, st', r) →
    WF st' ∧ st'.width = st.width ∧ st'.height = st.height ∧
    st'.row_clues = st.row_clues ∧ st'.col_clues = st.col_clues ∧
    (∀ i j, (st.grid.getD i []).getD j 0 ≠ 0 →
      (st'.grid.getD i []).getD j 0 = (st.grid.getD i []).getD j 0) := by
  intro fuel
  induction fuel with
  | zero =>
    intro st tr st' r _ h
    exact absurd h (by rw [solveLoop]; simp)
  | succ fuel ih =>
    intro st tr st' r hWF h
    obtain ⟨k1, k2, k3, k4, k5, _, k7⟩ := runPass_props hWF
    by_cases h1 : (runPass st).ok = true
    · by_cases h2 : (runPass st).made = true
      · rw [solveLoop_succ_step h1 h2] at h
        cases hs : solveLoop fuel (runPass st).state with
        | none => rw [hs] at h; exact absurd h (by simp)
        | some out =>
          obtain ⟨tr0, st0, r0⟩ := out
          rw [hs] at h
          simp only at h
          obtain ⟨m1, m2, m3, m4, m5, m7⟩ := ih (runPass st).state tr0 st0 r0 k1 hs
          have hst' : st' = st0 := by
            have := (Option.some.inj h)
            exact (congrArg (fun x => x.2.1) this).symm
          subst hst'
          refine ⟨m1, by rw [m2, k2], by rw [m3, k3], by rw [m4, k4], by rw [m5, k5], ?_⟩
          intro a b hab
          have hx := k7 a b hab
          rw [m7 a b (by rw [hx]; exact hab), hx]
      · rw [solveLoop_succ_done h1 (by simpa using h2)] at h
        have hst' : st' = (runPass st).state := by
          have := (Option.some.inj h)
          exact (congrArg (fun x => x.2.1) this).symm
        subst hst'
        exact ⟨k1, k2, k3, k4, k5, k7⟩
    · rw [solveLoop_succ_fail (by simpa using h1)] at h
      have hst' : st' = (runPass st).state := by
        have := (Option.some.inj h)
        exact (congrArg (fun x => x.2.1) this).symm
      subst hst'
      exact ⟨k1, k2, k3, k4, k5, k7⟩

theorem solveLoop_inconsistent : ∀ (fuel : Nat) (st : HState) (tr : List LineId)
    (st' : HState), solveLoop fuel st = some (tr, st', .inconsistent) →
    (∃ t i, tr = t ++ [.row i] ∧
      st'.rows_to_check.getD i false = true ∧
      make_deductions (rowLine st' i) (st'.row_clues.getD i []) = none) ∨
    (∃ t i, tr = t ++ [.col i] ∧
      st'.cols_to_check.getD i false = true ∧
      make_deductions (colLine st' i) (st'.col_clues.getD i []) = none) := by
  intro fuel
  induction fuel with
  | zero =>
    intro st tr st' h
    exact absurd h (by rw [solveLoop]; simp)
  | succ fuel ih =>
    intro st tr st' h
    by_cases h1 : (runPass st).ok = true
    · by_cases h2 : (runPass st).made = true
      · rw [solveLoop_succ_step h1 h2] at h
        cases hs : solveLoop fuel (runPass st).state with
        | none => rw [hs] at h; exact absurd h (by simp)
        | some out =>
          obtain ⟨tr0, st0, r0⟩ := out
          rw [hs] at h
          simp only at h
          have htr : tr = (runPass st).trace ++ tr0 := by
            have := (Option.some.inj h)
            exact (congrArg (fun x => x.1) this).symm
          have hst' : st' = st0 := by
            have := (Option.some.inj h)
            exact (congrArg (fun x => x.2.1) this).symm
          have hr0 : r0 = SolveRes.inconsistent := by
            have := (Option.some.inj h)
            exact (congrArg (fun x => x.2.2) this)
          subst hst' htr
          rw [hr0] at hs
          rcases ih (runPass st).state tr0 st' hs with ⟨t, i, ht, hf, hm⟩ | ⟨t, i, ht, hf, hm⟩
          · exact Or.inl ⟨(runPass st).trace ++ t, i, by rw [ht, List.append_assoc], hf, hm⟩
          · exact Or.inr ⟨(runPass st).trace ++ t, i, by rw [ht, List.append_assoc], hf, hm⟩
      · rw [solveLoop_succ_done h1 (by simpa using h2)] at h
        have := (Option.some.inj h)
        have hr0 : SolveRes.done = SolveRes.inconsistent :=
          congrArg (fun x => x.2.2) this
        exact absurd hr0 (by simp)
    · rw [solveLoop_succ_fail (by simpa using h1)] at h
      have := (Option.some.inj h)
      have htr : tr = (runPass st).trace := (congrArg (fun x => x.1) this).symm
      have hst' : st' = (runPass st).state := (congrArg (fun x => x.2.1) this).symm
      subst htr hst'
      exact runPass_fail (by simpa using h1)

theorem solveLoop_total : ∀ (fuel : Nat) (st : HState), WF st →
    countUnknowns st + 2 ≤ fuel → solveLoop fuel st ≠ none := by
  intro fuel
  induction fuel with
  | zero => intro st _ h; omega
  | succ fuel ih =>
    intro st hWF hfuel
    by_cases h1 : (runPass st).ok = true
    · by_cases h2 : (runPass st).made = true
      · rw [solveLoop_succ_step h1 h2]
        obtain ⟨k1, _, _, _, _, k6, _⟩ := runPass_props hWF
        by_cases hdec : countUnknowns (runPass st).state < countUnknowns st
        · have hne := ih (runPass st).state k1 (by omega)
          cases hs : solveLoop fuel (runPass st).state with
          | none => exact absurd hs hne
          | some out =>
            obtain ⟨tr0, st0, r0⟩ := out
            simp
        · have hcnt : countUnknowns (runPass st).state = countUnknowns st := by omega
          obtain ⟨hrall, hcall⟩ := runPass_stagnant hWF h1 hcnt
          match fuel, hfuel with
          | fuel + 1, _ =>
            have hq := runPass_all_false hrall hcall
            rw [solveLoop_succ_done (by rw [hq]) (by rw [hq])]
            simp
      · rw [solveLoop_succ_done h1 (by simpa using h2)]
        simp
    · rw [solveLoop_succ_fail (by simpa using h1)]
      simp

theorem WF_init (row_clues col_clues : List (List Nat)) :
    WF (init row_clues col_clues) := by
  refine ⟨by simp [init], ?_, by simp [init], by simp [init]⟩
  intro row hrow
  simp [init] at hrow
  rw [hrow.2]
  simp [init]


theorem bool_getD_false : ∀ (l : List Bool), (∀ b ∈ l, b = false) → ∀ (i : Nat),
    l.getD i false = false := by
  intro l
  induction l with
  | nil => intro _ i; rfl
  | cons a t ih =>
    intro h i
    match i with
    | 0 => exact h a (by simp)
    | i + 1 =>
      rw [List.getD_cons_succ]
      exact ih (fun b hb => h b (List.mem_cons_of_mem _ hb)) i

/-- C6: if `solve` reports an inconsistency, it stopped at the failing
probe: the probe trace ends at the failing line, and in the returned state
that line's dirty flag is still set and its consistency check (the first
step of `_make_deductions`) still fails — the failing probe wrote no
deduction, changed no flag, and nothing was probed after it. -/
theorem C6_inconsistent_stops (st : HState) (tr : List LineId) (st' : HState)
    (h : solve st = some (tr, st', .inconsistent)) :
    (∃ t i, tr = t ++ [.row i] ∧
      st'.rows_to_check.getD i false = true ∧
      make_deductions (rowLine st' i) (st'.row_clues.getD i []) = none) ∨
    (∃ t i, tr = t ++ [.col i] ∧
      st'.cols_to_check.getD i false = true ∧
      make_deductions (colLine st' i) (st'.col_clues.getD i []) = none) :=
  solveLoop_inconsistent (countUnknowns st + 2) st tr st' h

theorem C6_witness :
    (∃ t i, ([LineId.row 0] : List LineId) = t ++ [.row i] ∧
      (init [[2]] [[1]]).rows_to_check.getD i false = true ∧
      make_deductions (rowLine (init [[2]] [[1]]) i)
        ((init [[2]] [[1]]).row_clues.getD i []) = none) ∨
    (∃ t i, ([LineId.row 0] : List LineId) = t ++ [.col i] ∧
      (init [[2]] [[1]]).cols_to_check.getD i false = true ∧
      make_deductions (colLine (init [[2]] [[1]]) i)
        ((init [[2]] [[1]]).col_clues.getD i []) = none) :=
  C6_inconsistent_stops (init [[2]] [[1]]) [.row 0] (init [[2]] [[1]]) (by decide)

/-- C7: everything terminates.  The line search returns an answer within
`searchFuel` iterations of its driver loop for every line and clue list,
and `solve` (run with fuel `countUnknowns + 2`, which the proof shows
suffices) returns an answer for every puzzle. -/
theorem C7_termination :
    (∀ (line : List Int) (clues : List Nat),
      hasSolutionLoop line clues (searchFuel line) [(0, 0)] ≠ none) ∧
    (∀ (row_clues col_clues : List (List Nat)),
      solve (init row_clues col_clues) ≠ none) := by
  constructor
  · intro line clues
    rw [loop_eq_out, loopOut_root_eq]
    simp
  · intro rcs ccs
    exact solveLoop_total (countUnknowns (init rcs ccs) + 2) (init rcs ccs)
      (WF_init rcs ccs) (le_refl _)

/-- C8: on a state whose dirty flags are all clear (the fixpoint reached by
a completed `solve`), running `solve` again probes no line and returns the
state unchanged. -/
theorem C8_solve_idempotent (st : HState)
    (hr : ∀ b ∈ st.rows_to_check, b = false)
    (hc : ∀ b ∈ st.cols_to_check, b = false) :
    solve st = some ([], st, .done) := by
  have h1 := runPass_all_false (bool_getD_false _ hr) (bool_getD_false _ hc)
  show solveLoop (countUnknowns st + 1 + 1) st = _
  rw [solveLoop_succ_done (by rw [h1]) (by rw [h1]), h1]

theorem C8_witness :
    solve ⟨1, 1, [[0]], [[1]], [[1]], [false], [false]⟩ =
      some ([], ⟨1, 1, [[0]], [[1]], [[1]], [false], [false]⟩, .done) :=
  C8_solve_idempotent ⟨1, 1, [[0]], [[1]], [[1]], [false], [false]⟩
    (by decide) (by decide)

/-- C10: solving is monotone.  Deductions are recorded only for cells that
are `Unknown` at probe time and only with the values `Filled`/`Empty`, no
two deductions of one probe target the same cell, a cell that is already
determined keeps its value through a whole `solve`, and the grid
dimensions and both clue lists never change. -/
theorem C10_monotonic (st : HState) (tr : List LineId) (st' : HState)
    (r : SolveRes) (hWF : WF st) (h : solve st = some (tr, st', r)) :
    (∀ (line : List Int) (clues : List Nat) (ds : List (Nat × Int)),
      make_deductions line clues = some ds →
      ∀ d ∈ ds, line.getD d.1 0 = 0 ∧ (d.2 = -1 ∨ d.2 = 1)) ∧
    (∀ (line : List Int) (clues : List Nat) (ds : List (Nat × Int)),
      make_deductions line clues = some ds →
      ds.Pairwise (fun a b => a.1 < b.1)) ∧
    (∀ i j, (st.grid.getD i []).getD j 0 ≠ 0 →
      (st'.grid.getD i []).getD j 0 = (st.grid.getD i []).getD j 0) ∧
    st'.width = st.width ∧ st'.height = st.height ∧
    st'.grid.length = st.grid.length ∧
    (∀ i, (st'.grid.getD i []).length = (st.grid.getD i []).length) ∧
    st'.row_clues = st.row_clues ∧ st'.col_clues = st.col_clues := by
  have h' : solveLoop (countUnknowns st + 2) st = some (tr, st', r) := h
  obtain ⟨m1, m2, m3, m4, m5, m7⟩ :=
    solveLoop_props (countUnknowns st + 2) st tr st' r hWF h'
  refine ⟨?_, ?_, m7, m2, m3, ?_, ?_, m4, m5⟩
  · intro line clues ds hds d hd
    exact ⟨(make_deductions_mem hds d hd).1, (make_deductions_mem hds d hd).2.2⟩
  · intro line clues ds hds
    obtain ⟨hc, he⟩ := make_deductions_some_check hds
    rw [he]
    exact deduceFrom_pairwise line clues hc line.length 0
  · rw [m1.1, m3, ← hWF.1]
  · intro i
    by_cases hi : i < st.grid.length
    · have hi' : i < st'.grid.length := by rw [m1.1, m3, ← hWF.1]; omega
      rw [m1.2.1 _ (getD_mem _ i hi'), hWF.2.1 _ (getD_mem _ i hi), m2]
    · rw [getD_ge _ _ _ (by rw [m1.1, m3, ← hWF.1]; omega), getD_ge _ _ _ (by omega)]

theorem C10_witness :
    WF ⟨1, 1, [[1]], [[1]], [[1]], [false], [false]⟩ ∧
    ((∀ (line : List Int) (clues : List Nat) (ds : List (Nat × Int)),
      make_deductions line clues = some ds →
      ∀ d ∈ ds, line.getD d.1 0 = 0 ∧ (d.2 = -1 ∨ d.2 = 1)) ∧
    (∀ (line : List Int) (clues : List Nat) (ds : List (Nat × Int)),
      make_deductions line clues = some ds →
      ds.Pairwise (fun a b => a.1 < b.1)) ∧
    (∀ i j, ((⟨1, 1, [[1]], [[1]], [[1]], [false], [false]⟩ : HState).grid.getD i []).getD j 0 ≠ 0 →
      ((⟨1, 1, [[1]], [[1]], [[1]], [false], [false]⟩ : HState).grid.getD i []).getD j 0 =
        ((⟨1, 1, [[1]], [[1]], [[1]], [false], [false]⟩ : HState).grid.getD i []).getD j 0) ∧
    (⟨1, 1, [[1]], [[1]], [[1]], [false], [false]⟩ : HState).width =
      (⟨1, 1, [[1]], [[1]], [[1]], [false], [false]⟩ : HState).width ∧
    (⟨1, 1, [[1]], [[1]], [[1]], [false], [false]⟩ : HState).height =
      (⟨1, 1, [[1]], [[1]], [[1]], [false], [false]⟩ : HState).height ∧
    (⟨1, 1, [[1]], [[1]], [[1]], [false], [false]⟩ : HState).grid.length =
      (⟨1, 1, [[1]], [[1]], [[1]], [false], [false]⟩ : HState).grid.length ∧
    (∀ i, ((⟨1, 1, [[1]], [[1]], [[1]], [false], [false]⟩ : HState).grid.getD i []).length =
      ((⟨1, 1, [[1]], [[1]], [[1]], [false], [false]⟩ : HState).grid.getD i []).length) ∧
    (⟨1, 1, [[1]], [[1]], [[1]], [false], [false]⟩ : HState).row_clues =
      (⟨1, 1, [[1]], [[1]], [[1]], [false], [false]⟩ : HState).row_clues ∧
    (⟨1, 1, [[1]], [[1]], [[1]], [false], [false]⟩ : HState).col_clues =
      (⟨1, 1, [[1]], [[1]], [[1]], [false], [false]⟩ : HState).col_clues) :=
  ⟨by decide, C10_monotonic ⟨1, 1, [[1]], [[1]], [[1]], [false], [false]⟩ []
    ⟨1, 1, [[1]], [[1]], [[1]], [false], [false]⟩ .done (by decide) (by decide)⟩

end Hanjie
